import Mathlib

/-!
Verification development for the graph evaluation engine in
src/graph_eval.py.  The Python module builds dependency graphs of named
computation nodes (defgraph / defnk), analyzes them (graph_free_vars,
topsort) and evaluates them with three strategies: a staged generator
(graph_compile2gen), an eager compiler (defnk_compile2func) and a lazy
compiler (defnk_compile2lazyfunc).

The embedding below is a direct translation of that code.  Python dicts
become association lists consulted through List.lookup (insertion with
fresh keys is modelled by consing, which has the same lookup semantics);
Python assertion failures become values of the Err type; the unbounded
while loops and the recursive deep_walk become fuelled recursions that
return Option.none when the fuel runs out, so that non-termination is
observable.  Python float arithmetic is modelled by exact rational
arithmetic on the reduced-fraction type Q (every numeric value appearing
in the specification scenarios is exactly representable).
-/

namespace GraphEval

/-- Node names, Python strings. -/
abbrev Name := String

/-- Reduced fractions standing in for Python floats.  All values in the
concrete scenarios of the spec are exactly representable, so exact
rational arithmetic is a faithful model of the float computations the
demo graph performs. -/
structure Q where
  num : Int
  den : Nat
deriving DecidableEq, Repr

/-- Build the reduced fraction n / d (junk value on a zero denominator,
which no claim exercises). -/
def qmk (n : Int) (d : Int) : Q :=
  if d = 0 then ⟨0, 1⟩ else
  let n' : Int := if d < 0 then -n else n
  let dn : Nat := d.natAbs
  let g : Nat := Nat.gcd n'.natAbs dn
  ⟨n' / (g : Int), dn / g⟩

/-- Embed an integer as a fraction. -/
def Q.ofInt (n : Int) : Q := ⟨n, 1⟩

/-- Addition of fractions. -/
def qadd (a b : Q) : Q := qmk (a.num * b.den + b.num * a.den) (a.den * b.den)

/-- Subtraction of fractions. -/
def qsub (a b : Q) : Q := qmk (a.num * b.den - b.num * a.den) (a.den * b.den)

/-- Multiplication of fractions. -/
def qmul (a b : Q) : Q := qmk (a.num * b.num) (a.den * b.den)

/-- Division of fractions. -/
def qdiv (a b : Q) : Q := qmk (a.num * b.den) (a.den * b.num)

/-- Values flowing through the demo graph: Python lists of numbers and
numbers. -/
inductive Val where
  | num (q : Q)
  | list (xs : List Q)
deriving DecidableEq, Repr

/-- One graph vertex, the Node namedtuple of graph_eval.py:
value (the producer callable, None for an auto-created entry),
requests (names this node depends on; a Python set, modelled as a
duplicate-free list) and requested (reverse edges, a Python list). -/
structure Node (V : Type) where
  value : Option (List (Name × V) → V)
  requests : List Name
  requested : List Name

/-- A graph, the dict name -> Node, in insertion order. -/
abbrev Graph (V : Type) := List (Name × Node V)

/-- Failure modes of the Python code.  Every constructor corresponds to a
concrete exception site: duplicateNode and cyclicDep are the two asserts
in defgraph.node, unknownInput is the assert of _assert_free_vars,
missingInput is the named not-provided assert of defnk_compile2func.f
(carrying the names listed in its message), lazyMissingFree is the bare
assert on free variables inside defnk_compile2lazyfunc.f (which carries
no message, hence no name), stackNonEmpty is the final
assert len(order) == 0 of the lazy compiler, keyError and indexError are
dict/list access failures, and typeError is a call of a None producer. -/
inductive Err where
  | duplicateNode
  | cyclicDep (dep name : Name)
  | unknownInput
  | missingInput (missing : List Name)
  | lazyMissingFree
  | stackNonEmpty
  | keyError (k : Name)
  | indexError
  | typeError
deriving DecidableEq, Repr

/-- Keys of an association list. -/
def keysOf {α : Type} (d : List (Name × α)) : List Name := d.map Prod.fst

/-- Lookup a node, with a junk default that is only reached where the
Python code would already have raised a KeyError. -/
def getNode {V : Type} (g : Graph V) (k : Name) : Node V :=
  (g.lookup k).getD ⟨none, [], []⟩

/-- Replace the entry of an existing key in place, preserving dict
order. -/
def dset {V : Type} (g : Graph V) (k : Name) (nd : Node V) : Graph V :=
  g.map (fun p => if p.1 = k then (k, nd) else p)

/-- The defaultdict behaviour of defgraph: accessing a missing key
materializes the entry dict(value = None, requests = set(),
requested = list()) at the end of the dict. -/
def ensure {V : Type} (g : Graph V) (k : Name) : Graph V :=
  if (g.lookup k).isSome then g else g ++ [(k, ⟨none, [], []⟩)]

/-- Python set.update: append the elements not already present. -/
def setUpdate (s : List Name) (xs : List Name) : List Name :=
  xs.foldl (fun acc x => if x ∈ acc then acc else acc ++ [x]) s

/-- The dependency loop of defgraph.node: for each dep, append name to
dep's requested list (creating the entry if needed) and assert that name
is not among dep's requests (the registration-time two-node cycle
check). -/
def registerDeps {V : Type} (name : Name) : List Name → Graph V → Except Err (Graph V)
  | [], g => .ok g
  | dep :: ds, g =>
    let g1 := ensure g dep
    let nd := getNode g1 dep
    let g2 := dset g1 dep { nd with requested := nd.requested ++ [name] }
    if name ∈ (getNode g2 dep).requests then .error (.cyclicDep dep name)
    else registerDeps name ds g2

/-- The node registration operation of defgraph: assert the name is not
already a key of the dict (the defaultdict may already hold an
auto-created entry for it), store the producer, process the
dependencies, then merge them into the requests set. -/
def register {V : Type} (g : Graph V) (value : Option (List (Name × V) → V))
    (name : Name) (deps : List Name) : Except Err (Graph V) :=
  if (g.lookup name).isSome then .error .duplicateNode
  else
    let g1 := ensure g name
    let g2 := dset g1 name { getNode g1 name with value := value }
    match registerDeps name deps g2 with
    | .error e => .error e
    | .ok g3 =>
      let nd := getNode g3 name
      .ok (dset g3 name { nd with requests := setUpdate nd.requests deps })

/-- A recorded registration call: producer, name, dependencies. -/
abbrev Reg (V : Type) := Option (List (Name × V) → V) × Name × List Name

/-- Run defgraph on a definition routine that performs the given sequence
of registration calls.  The final dict-to-namedtuple conversion of
defgraph is the identity in this model. -/
def defgraphRun {V : Type} (regs : List (Reg V)) : Except Err (Graph V) :=
  regs.foldlM (fun g r => register g r.1 r.2.1 r.2.2) []

/-- The free variables of a graph (graph_free_vars): names whose stored
value is None, in dict order. -/
def graphFreeVars {V : Type} (g : Graph V) : List Name :=
  (g.filter (fun p => p.2.value.isNone)).map Prod.fst

/-- The check of _assert_free_vars: every supplied key is a free
variable. -/
def assertFreeVars {V : Type} (freeVars : List Name) (kw : List (Name × V)) : Bool :=
  kw.all (fun p => freeVars.contains p.1)

/-- The environment dict((w, got[w]) for w in requests).  Built with
filterMap so it is total; at every call site the code has already
checked that all requested names are present. -/
def envOf {V : Type} (got : List (Name × V)) (reqs : List Name) : List (Name × V) :=
  reqs.filterMap (fun w => (got.lookup w).map (fun v => (w, v)))

/-! Topological layering (topsort).  The recursive deep_walk is fuelled:
each nested recursive call costs one unit, so a Python run that would
recurse without bound is a run for which every fuel returns none. -/

/-- The mutable state of topsort: the memo dict _toposorted and the
completion-ordered list toposorted_vars. -/
structure TState where
  memo : List (Name × Nat)
  vars : List (Nat × Name)
deriving Repr

/-- Record a finished node: memo entry plus an append to
toposorted_vars. -/
def tpush (st : TState) (name : Name) (level : Nat) : TState :=
  ⟨(name, level) :: st.memo, st.vars ++ [(level, name)]⟩

/-- The expression 1 + max(deep_walk(child) for child in requests),
abstracted over the walker f: walk each child left to right, threading
the state, and take the maximum of the levels.  On the empty list it
fails like Python max on an empty sequence (never reached: guarded by
the emptiness test in deep_walk). -/
def walkMaxWith (f : TState → Name → Option (Nat × TState)) :
    TState → List Name → Option (Nat × TState)
  | _, [] => none
  | st, [d] => f st d
  | st, d :: d2 :: ds =>
    match f st d with
    | none => none
    | some (l, st1) =>
      match walkMaxWith f st1 (d2 :: ds) with
      | none => none
      | some (mx, st2) => some (Nat.max l mx, st2)

/-- The recursive deep_walk of topsort: return the memoized level if
present, otherwise look the node up (KeyError on a dangling name models
as none), give level 0 to nodes with empty requests and
1 + max over the children otherwise, then record the result. -/
def deepWalk {V : Type} (g : Graph V) : Nat → TState → Name → Option (Nat × TState)
  | 0, _, _ => none
  | fuel + 1, st, name =>
    match st.memo.lookup name with
    | some l => some (l, st)
    | none =>
      match g.lookup name with
      | none => none
      | some node =>
        match node.requests with
        | [] => some (0, tpush st name 0)
        | d :: ds =>
          match walkMaxWith (fun st1 c => deepWalk g fuel st1 c) st (d :: ds) with
          | none => none
          | some (mx, st1) => some (mx + 1, tpush st1 name (mx + 1))

/-- The driver loop for name in graph: deep_walk(name). -/
def topsortFold {V : Type} (g : Graph V) (fuel : Nat) : Option TState :=
  g.foldlM (fun st p => (deepWalk g fuel st p.1).map Prod.snd) ⟨[], []⟩

/-- Lexicographic comparison of character lists: the order Python uses on
strings. -/
def lexLt : List Char → List Char → Bool
  | [], [] => false
  | [], _ :: _ => true
  | _ :: _, [] => false
  | a :: as, b :: bs => if a < b then true else if b < a then false else lexLt as bs

/-- Non-strict name order derived from lexLt. -/
def nameLe (a b : Name) : Bool := lexLt a.data b.data || a == b

/-- The order sorted uses on the (level, name) pairs of toposorted_vars:
lexicographic on the pair. -/
def pairLe (a b : Nat × Name) : Bool :=
  a.1 < b.1 || (a.1 == b.1 && nameLe a.2 b.2)

/-- Insert a pair into an already sorted list. -/
def insertSorted (x : Nat × Name) : List (Nat × Name) → List (Nat × Name)
  | [] => [x]
  | y :: ys => if pairLe x y then x :: y :: ys else y :: insertSorted x ys

/-- Python sorted(toposorted_vars): since distinct nodes give distinct
pairs and pairLe is a total order on them, the sorted rearrangement is
unique and an insertion sort produces it. -/
def sortPairs (l : List (Nat × Name)) : List (Nat × Name) :=
  l.foldr insertSorted []

/-- Take the leading run of pairs at the given level, returning the run's
names and the remainder. -/
def spanLevel (l : Nat) : List (Nat × Name) → List Name × List (Nat × Name)
  | [] => ([], [])
  | p :: rest =>
    if p.1 = l then
      let r := spanLevel l rest
      (p.2 :: r.1, r.2)
    else ([], p :: rest)

/-- Structural worker for groupByLevel: the fuel only serves to make the
recursion structural, and the list length is always enough of it because
every step consumes at least the head. -/
def groupByLevelAux : Nat → List (Nat × Name) → List (List Name)
  | 0, _ => []
  | _, [] => []
  | fuel + 1, p :: rest =>
    let r := spanLevel p.1 rest
    (p.2 :: r.1) :: groupByLevelAux fuel r.2

/-- Python itertools.groupby over the sorted pairs, keyed by level:
collect consecutive runs of equal level into layers. -/
def groupByLevel (ps : List (Nat × Name)) : List (List Name) :=
  groupByLevelAux ps.length ps

/-- The full topsort: walk every name, then sort the collected
(level, name) pairs and group them by level into layers. -/
def topsortFuel {V : Type} (g : Graph V) (fuel : Nat) : Option (List (List Name)) :=
  (topsortFold g fuel).map (fun st => groupByLevel (sortPairs st.vars))

/-! The staged evaluation driver (graph_compile2gen), modelled as an
explicit generator: genStart validates the bindings and produces the
first generator output, genStep resumes the generator with the results
sent by the caller. -/

/-- The generator state: the bindings dict got (seeded with the supplied
free variables) and the waiting set of offered-but-unresolved names
(kept as a list without duplicates). -/
structure GenSt (V : Type) where
  got : List (Name × V)
  waiting : List Name

/-- A job descriptor as yielded: (name, producer, captured environment).
The producer slot carries graph[k].value verbatim, an Option. -/
abbrev Job (V : Type) := Name × Option (List (Name × V) → V) × List (Name × V)

/-- One generator output: either a yielded batch of jobs together with
the state the generator suspends in, or normal termination
(StopIteration). -/
inductive GenOut (V : Type) where
  | yield (jobs : List (Job V)) (st : GenSt V)
  | done

/-- The loop condition graph_keys.symmetric_difference(got): got covers
the graph exactly. -/
def covered {V : Type} (g : Graph V) (got : List (Name × V)) : Bool :=
  g.all (fun p => (got.lookup p.1).isSome) && got.all (fun p => (g.lookup p.1).isSome)

/-- The ready-set computation new_to_ask: keys not yet resolved, not
waiting, all of whose requests are resolved, in dict order. -/
def newToAsk {V : Type} (g : Graph V) (st : GenSt V) : List Name :=
  (g.filter (fun p =>
    (st.got.lookup p.1).isNone &&
    !(st.waiting.contains p.1) &&
    p.2.requests.all (fun w => (st.got.lookup w).isSome))).map Prod.fst

/-- Run the generator body from the top of its while loop: terminate if
got covers the graph, otherwise offer the ready batch and suspend with
the batch added to waiting. -/
def genEmit {V : Type} (g : Graph V) (st : GenSt V) : GenOut V :=
  if covered g st.got then .done
  else
    let ask := newToAsk g st
    .yield (ask.map (fun k => (k, (getNode g k).value, envOf st.got (getNode g k).requests)))
      ⟨st.got, st.waiting ++ ask⟩

/-- Absorb the results sent to the generator: for k in just_got,
waiting.remove(k) (a KeyError if k is not waiting) and got[k] =
just_got[k]. -/
def absorb {V : Type} (st : GenSt V) : List (Name × V) → Except Err (GenSt V)
  | [] => .ok st
  | (k, v) :: rest =>
    if st.waiting.contains k then
      absorb ⟨(k, v) :: st.got, st.waiting.erase k⟩ rest
    else .error (.keyError k)

/-- Construct the generator: validate the bindings like
_assert_free_vars, seed got and run to the first suspension. -/
def genStart {V : Type} (g : Graph V) (kw : List (Name × V)) : Except Err (GenOut V) :=
  if assertFreeVars (graphFreeVars g) kw then .ok (genEmit g ⟨kw, []⟩)
  else .error .unknownInput

/-- Resume the generator with the caller's results. -/
def genStep {V : Type} (g : Graph V) (st : GenSt V) (justGot : List (Name × V)) :
    Except Err (GenOut V) :=
  (absorb st justGot).map (genEmit g)

/-! The eager compiler (defnk_compile2func): drive the generator wave by
wave, computing every job of a wave and submitting the partial results
together, accumulating them into res. -/

/-- Evaluate one wave of jobs: partial_res = dict((k, f(**env)) ...).
Calling a None producer is the TypeError Python would raise (never
reached on driver-produced jobs for validated bindings). -/
def runJobs {V : Type} : List (Job V) → Except Err (List (Name × V))
  | [] => .ok []
  | j :: js =>
    match j.2.1 with
    | none => .error .typeError
    | some f =>
      match runJobs js with
      | .error e => .error e
      | .ok ws => .ok ((j.1, f j.2.2) :: ws)

/-- The wave loop of the eager compiler, fuelled by the number of
resumptions. -/
def eagerLoop {V : Type} (g : Graph V) :
    Nat → GenOut V → List (Name × V) → Option (Except Err (List (Name × V)))
  | 0, _, _ => none
  | fuel + 1, out, res =>
    match out with
    | .done => some (.ok res)
    | .yield jobs st =>
      match runJobs jobs with
      | .error e => some (.error e)
      | .ok waveRes =>
        match genStep g st waveRes with
        | .error e => some (.error e)
        | .ok out2 => eagerLoop g fuel out2 (res ++ waveRes)

/-- The compiled eager function f(**kw): the _assert_free_vars check, the
named not-provided check, then the generator drive. -/
def eagerFun {V : Type} (g : Graph V) (kw : List (Name × V)) (fuel : Nat) :
    Option (Except Err (List (Name × V))) :=
  let freeVars := graphFreeVars g
  if !(assertFreeVars freeVars kw) then some (.error .unknownInput)
  else
    let notProvided := freeVars.filter (fun n => (kw.lookup n).isNone)
    if notProvided.length != 0 then some (.error (.missingInput notProvided))
    else
      match genStart g kw with
      | .error e => some (.error e)
      | .ok out => eagerLoop g fuel out []

/-! A manually stepped run of the staged driver, the serial loop of
main(): keep the yielded jobs on a stack, pop one job, evaluate it,
submit its single result, push the newly yielded jobs.  The stack is
kept reversed (head = Python list tail) so that pop and extend are head
operations.  All submitted results are collected. -/

/-- The serial stepping loop. -/
def serialLoop {V : Type} (g : Graph V) :
    Nat → GenSt V → List (Job V) → List (Name × V) → Option (Except Err (List (Name × V)))
  | 0, _, _, _ => none
  | fuel + 1, st, jobs, res =>
    match jobs with
    | [] => some (.error .indexError)
    | j :: rest =>
      match j.2.1 with
      | none => some (.error .typeError)
      | some f =>
        let v := f j.2.2
        match genStep g st [(j.1, v)] with
        | .error e => some (.error e)
        | .ok .done => some (.ok (res ++ [(j.1, v)]))
        | .ok (.yield newJobs st2) =>
          serialLoop g fuel st2 (newJobs.reverse ++ rest) (res ++ [(j.1, v)])

/-- The manually stepped staged run: start the generator, then step one
job at a time, collecting every submitted result. -/
def serialRun {V : Type} (g : Graph V) (kw : List (Name × V)) (fuel : Nat) :
    Option (Except Err (List (Name × V))) :=
  match genStart g kw with
  | .error e => some (.error e)
  | .ok .done => some (.ok [])
  | .ok (.yield jobs st) => serialLoop g fuel st jobs.reverse []

/-! The lazy compiler (defnk_compile2lazyfunc): an explicit work stack
seeded with the requested names.  The Python list order is kept reversed
here, so the Python order.pop() from the tail is a head pattern match,
order.append(item) followed by order.extend(deps) becomes
deps.reverse ++ item :: rest, and the initial order = list(args) becomes
args.reverse. -/

/-- The while loop of the lazy compiled function, returning the final
got dict (the source returns its restriction to the requested names;
keeping the whole dict makes the set of producer invocations, exactly
the entries added to got, visible to the theorems). -/
def lazyWork {V : Type} (g : Graph V) (freeVars : List Name) (args : List Name) :
    Nat → List Name → List (Name × V) → Option (Except Err (List (Name × V)))
  | 0, _, _ => none
  | fuel + 1, order, got =>
    if args.all (fun a => (got.lookup a).isSome) then
      if order.isEmpty then some (.ok got) else some (.error .stackNonEmpty)
    else
      match order with
      | [] => some (.error .indexError)
      | item :: rest =>
        if (got.lookup item).isSome then lazyWork g freeVars args fuel rest got
        else
          match g.lookup item with
          | none => some (.error (.keyError item))
          | some node =>
            let notProvided := node.requests.filter (fun r => (got.lookup r).isNone)
            if notProvided.length > 0 then
              if notProvided.any (fun r => freeVars.contains r) then
                some (.error .lazyMissingFree)
              else lazyWork g freeVars args fuel (notProvided.reverse ++ item :: rest) got
            else
              match node.value with
              | none => some (.error .typeError)
              | some f =>
                lazyWork g freeVars args fuel rest
                  ((item, f (envOf got node.requests)) :: got)

/-- The compiled lazy function f(*args, **kw): the _assert_free_vars
check, the work loop, and finally the restriction
dict((asked, got[asked]) for asked in args). -/
def lazyFun {V : Type} (g : Graph V) (args : List Name) (kw : List (Name × V))
    (fuel : Nat) : Option (Except Err (List (Name × V))) :=
  let freeVars := graphFreeVars g
  if !(assertFreeVars freeVars kw) then some (.error .unknownInput)
  else
    match lazyWork g freeVars args fuel args.reverse kw with
    | none => none
    | some (.error e) => some (.error e)
    | some (.ok got) =>
      some (.ok (args.filterMap (fun a => (got.lookup a).map (fun v => (a, v)))))

/-! The demo graph of graph_eval.py (the defnk block at the bottom of the
module): n(xs) = float(len(xs)), m(xs, n) = sum(xs)/n,
m2(xs, n) = sum(x**2 for x in xs)/n, var(m, m2) = m2 - m**2, with the
free variable xs.  The producers read their dependency environments; on
an argument of the wrong shape they return the junk value 0, a branch no
claim exercises (Python would raise a TypeError there). -/

/-- Fetch a numeric argument from a producer environment. -/
def envNum (env : List (Name × Val)) (k : Name) : Q :=
  match env.lookup k with
  | some (.num q) => q
  | _ => ⟨0, 1⟩

/-- Fetch a list argument from a producer environment. -/
def envList (env : List (Name × Val)) (k : Name) : List Q :=
  match env.lookup k with
  | some (.list l) => l
  | _ => []

/-- Producer n(xs) = float(len(xs)). -/
def prodN (env : List (Name × Val)) : Val :=
  .num (Q.ofInt (envList env "xs").length)

/-- Sum of a list of fractions, Python sum. -/
def qsum (l : List Q) : Q := l.foldl qadd ⟨0, 1⟩

/-- Producer m(xs, n) = sum(xs)/n. -/
def prodM (env : List (Name × Val)) : Val :=
  .num (qdiv (qsum (envList env "xs")) (envNum env "n"))

/-- Producer m2(xs, n) = sum(x**2 for x in xs)/n. -/
def prodM2 (env : List (Name × Val)) : Val :=
  .num (qdiv (qsum ((envList env "xs").map (fun x => qmul x x))) (envNum env "n"))

/-- Producer var(m, m2) = m2 - m**2. -/
def prodVar (env : List (Name × Val)) : Val :=
  .num (qsub (envNum env "m2") (qmul (envNum env "m") (envNum env "m")))

/-- The registration sequence the defnk block performs (defn introspects
each function's name and parameter tuple): n(xs), m(xs, n), m2(xs, n),
var(m, m2). -/
def demoRegs : List (Reg Val) :=
  [(some prodN, "n", ["xs"]),
   (some prodM, "m", ["xs", "n"]),
   (some prodM2, "m2", ["xs", "n"]),
   (some prodVar, "var", ["m", "m2"])]

/-- The built demo graph: the graph defgraph returns for demoRegs. -/
def demoGraph : Graph Val := (defgraphRun demoRegs).toOption.getD []

/-- The input xs = range(10) as a list of numbers. -/
def xsVal : Val := .list ((List.range 10).map (fun i => Q.ofInt i))

/-- The demo bindings dict(xs = range(10)). -/
def demoKw : List (Name × Val) := [("xs", xsVal)]

/-! Specification-side predicates and the concrete graphs used by the
claims. -/

/-- A well formed dict: its keys are pairwise distinct. -/
def GoodGraph {V : Type} (g : Graph V) : Prop := (keysOf g).Nodup

/-- A closed graph: every requested name is itself a key. -/
def Closed {V : Type} (g : Graph V) : Prop :=
  ∀ p ∈ g, ∀ d ∈ p.2.requests, (g.lookup d).isSome

/-- A rank function witnessing acyclicity: every dependency edge strictly
decreases the rank.  A finite graph admits one exactly when its
dependency edges form no cycle. -/
def RankFn {V : Type} (g : Graph V) (rk : Name → Nat) : Prop :=
  ∀ p ∈ g, ∀ d ∈ p.2.requests, rk d < rk p.1

/-- The transitive dependency closure of a set of requested names:
the names whose producers the lazy compiler is allowed to invoke. -/
inductive InClosure {V : Type} (g : Graph V) (args : List Name) : Name → Prop
  | base (a : Name) (h : a ∈ args) : InClosure g args a
  | step (a b : Name) (node : Node V) (ha : InClosure g args a)
      (hn : g.lookup a = some node) (hb : b ∈ node.requests) : InClosure g args b

/-- Divergence of the layering: no recursion budget suffices, the model
of a Python run that exhausts the recursion limit. -/
def TopsortDiverges {V : Type} (g : Graph V) : Prop :=
  ∀ fuel : Nat, topsortFuel g fuel = none

/-- A three node dependency cycle a -> b -> c -> a (as graph data; the
registration-time check of the builder only inspects direct two-node
back edges, and longer cycles are exactly what the spec says the
traversal must catch). -/
def cyc3 : Graph Val :=
  [("a", ⟨some prodN, ["b"], ["c"]⟩),
   ("b", ⟨some prodN, ["c"], ["a"]⟩),
   ("c", ⟨some prodN, ["a"], ["b"]⟩)]

/-- A self loop registration: defgraph accepts it, because the requests
set of the node is still empty when the cycle assert inspects it. -/
def selfLoopRegs : List (Reg Val) := [(some prodN, "a", ["a"])]

/-- The graph the builder returns for the self loop registration. -/
def selfLoopGraph : Graph Val := (defgraphRun selfLoopRegs).toOption.getD []

/-- The forward-reference registration sequence: node a depends on b,
then b itself is registered. -/
def forwardRegs : List (Reg Val) :=
  [(some prodN, "a", ["b"]), (some prodM, "b", [])]

/-- A graph with an unresolvable node (the self loop), used to exhibit
the staged driver spinning on an empty ready set.  Its node has a
producer, so it has no free variables. -/
def stuckGraph : Graph Val := [("a", ⟨some prodN, ["a"], []⟩)]

/-- A graph with two free variables, x (an auto-created dependency of a)
and y (registered with producer None), used to show the lazy compiler
ignoring an omitted free variable it does not need. -/
def twoFreeRegs : List (Reg Val) :=
  [(some prodN, "a", ["x"]), (none, "y", [])]

/-- The graph built from twoFreeRegs. -/
def twoFreeGraph : Graph Val := (defgraphRun twoFreeRegs).toOption.getD []

/-- The eager result on the demo graph: the four producer nodes, xs not
included. -/
def demoEagerRes : List (Name × Val) :=
  [("n", .num ⟨10, 1⟩), ("m", .num ⟨9, 2⟩), ("m2", .num ⟨57, 2⟩), ("var", .num ⟨33, 4⟩)]

/-- A request order for all five demo names that the lazy compiler
completes on (dependents before dependencies, so the stack empties). -/
def demoAllNames : List Name := ["var", "m2", "m", "n", "xs"]

/-- The lazy result for demoAllNames: all five nodes, xs included. -/
def demoLazyAllRes : List (Name × Val) :=
  [("var", .num ⟨33, 4⟩), ("m2", .num ⟨57, 2⟩), ("m", .num ⟨9, 2⟩),
   ("n", .num ⟨10, 1⟩), ("xs", xsVal)]

/-- The results collected by the manually stepped staged run of the demo
graph, in submission order. -/
def demoSerialRes : List (Name × Val) :=
  [("n", .num ⟨10, 1⟩), ("m2", .num ⟨57, 2⟩), ("m", .num ⟨9, 2⟩),
   ("var", .num ⟨33, 4⟩)]

/-- A rank function for the demo graph. -/
def demoRank (n : Name) : Nat :=
  if n = "xs" then 0 else if n = "n" then 1 else if n = "var" then 3 else 2

/-- Conservative extension of a memo table: every recorded level is
preserved. -/
def MExtends (m1 m2 : List (Name × Nat)) : Prop :=
  ∀ k v, m1.lookup k = some v → m2.lookup k = some v

/-- Coherence of the topsort memo table: every recorded entry belongs to
a graph node; a node with no requests is recorded at level 0, and a node
with requests is recorded at one more than the maximum of its
dependencies' recorded levels (every dependency is recorded strictly
lower, and some dependency is recorded exactly one lower). -/
def MInv {V : Type} (g : Graph V) (memo : List (Name × Nat)) : Prop :=
  (keysOf memo).Nodup ∧
  ∀ n l, memo.lookup n = some l → ∃ node, g.lookup n = some node ∧
    (node.requests = [] → l = 0) ∧
    (node.requests ≠ [] →
      (∀ d ∈ node.requests, ∃ ld, memo.lookup d = some ld ∧ ld < l) ∧
      (∃ d ∈ node.requests, ∃ ld, memo.lookup d = some ld ∧ l = ld + 1))

/-- Full invariant of the topsort state: the memo is coherent and
toposorted_vars records exactly the memo entries in completion order
(each walk pushes to the memo front and appends to the vars list). -/
def TInv {V : Type} (g : Graph V) (st : TState) : Prop :=
  MInv g st.memo ∧ st.vars = (st.memo.map (fun p => (p.2, p.1))).reverse

/-- Soundness of a bindings dict with respect to the graph and the
supplied free-variable bindings: every entry is either a free variable
carrying its supplied value, or a producer node carrying exactly its
producer applied to the (fully resolved) environment of its
dependencies.  Every evaluation strategy of the module maintains this,
and on an acyclic graph it determines every value uniquely. -/
def Consistent {V : Type} (g : Graph V) (kw got : List (Name × V)) : Prop :=
  ∀ n v, got.lookup n = some v →
    ∃ node, g.lookup n = some node ∧
      match node.value with
      | none => kw.lookup n = some v
      | some f => (∀ d ∈ node.requests, (got.lookup d).isSome) ∧
          v = f (envOf got node.requests)

/-- Invariant of a suspended staged-driver state: the bindings are
consistent, stay inside the graph, extend the supplied free-variable
bindings, and the waiting set is a duplicate-free set of unresolved
graph names. -/
def StInv {V : Type} (g : Graph V) (kw : List (Name × V)) (st : GenSt V) : Prop :=
  Consistent g kw st.got ∧
  (∀ n, (st.got.lookup n).isSome → n ∈ keysOf g) ∧
  (∀ n, (kw.lookup n).isSome → st.got.lookup n = kw.lookup n) ∧
  (∀ k ∈ st.waiting, st.got.lookup k = none ∧ k ∈ keysOf g) ∧
  st.waiting.Nodup

/-- Invariant tying the result dict res of the eager compiler (or the
collected submissions of a manually stepped run) to the driver bindings:
res is exactly the producer-node part of got. -/
def ResInv {V : Type} (kw got res : List (Name × V)) : Prop :=
  (∀ n v, res.lookup n = some v → got.lookup n = some v) ∧
  (∀ n, (res.lookup n).isSome → kw.lookup n = none) ∧
  (∀ n, (got.lookup n).isSome → (kw.lookup n).isSome ∨ (res.lookup n).isSome)

/-! General lemmas about the association-list dictionaries. -/

theorem lookup_cons_self {α : Type} (k : Name) (v : α) (l : List (Name × α)) :
    List.lookup k ((k, v) :: l) = some v := by
  simp [List.lookup_cons]

theorem lookup_cons_ne {α : Type} {k j : Name} (v : α) (l : List (Name × α))
    (h : k ≠ j) : List.lookup k ((j, v) :: l) = List.lookup k l := by
  rw [List.lookup_cons]
  have : (k == j) = false := beq_eq_false_iff_ne.mpr h
  simp [this]

theorem lookup_isSome_iff_mem_keys {α : Type} (l : List (Name × α)) (k : Name) :
    (l.lookup k).isSome ↔ k ∈ keysOf l := by
  induction l with
  | nil => simp [keysOf]
  | cons p rest ih =>
    obtain ⟨j, v⟩ := p
    by_cases h : k = j
    · subst h
      simp [lookup_cons_self, keysOf]
    · rw [lookup_cons_ne v rest h]
      simp only [keysOf, List.map_cons, List.mem_cons, h, false_or]
      exact ih

theorem lookup_mem {α : Type} {l : List (Name × α)} {k : Name} {v : α}
    (h : l.lookup k = some v) : (k, v) ∈ l := by
  induction l with
  | nil => simp [List.lookup_nil] at h
  | cons p rest ih =>
    obtain ⟨j, w⟩ := p
    by_cases hk : k = j
    · subst hk
      rw [lookup_cons_self] at h
      simp [← Option.some_inj.mp h]
    · rw [lookup_cons_ne w rest hk] at h
      exact List.mem_cons_of_mem _ (ih h)

theorem lookup_append_left {α : Type} {l1 : List (Name × α)} (l2 : List (Name × α))
    {k : Name} {v : α} (h : l1.lookup k = some v) : (l1 ++ l2).lookup k = some v := by
  induction l1 with
  | nil => simp [List.lookup_nil] at h
  | cons p rest ih =>
    obtain ⟨j, w⟩ := p
    by_cases hk : k = j
    · subst hk
      rw [lookup_cons_self] at h
      simpa [lookup_cons_self] using h
    · rw [lookup_cons_ne w rest hk] at h
      rw [List.cons_append, lookup_cons_ne w (rest ++ l2) hk]
      exact ih h

theorem lookup_append_right {α : Type} {l1 : List (Name × α)} (l2 : List (Name × α))
    {k : Name} (h : l1.lookup k = none) : (l1 ++ l2).lookup k = l2.lookup k := by
  induction l1 with
  | nil => simp
  | cons p rest ih =>
    obtain ⟨j, w⟩ := p
    by_cases hk : k = j
    · subst hk
      rw [lookup_cons_self] at h
      exact absurd h (by simp)
    · rw [lookup_cons_ne w rest hk] at h
      rw [List.cons_append, lookup_cons_ne w (rest ++ l2) hk]
      exact ih h

/-! Claim C4.  The recursive walk of topsort has no on-path revisit
guard: on the three node cycle a -> b -> c -> a every recursion budget
is exhausted, the walk never produces a result and no
CyclicDependencyError (nor any other detection) occurs. -/

theorem deepWalk_cyc3_none (fuel : Nat) :
    deepWalk cyc3 fuel ⟨[], []⟩ "a" = none ∧
    deepWalk cyc3 fuel ⟨[], []⟩ "b" = none ∧
    deepWalk cyc3 fuel ⟨[], []⟩ "c" = none := by
  induction fuel with
  | zero => exact ⟨rfl, rfl, rfl⟩
  | succ n ih =>
    refine ⟨?_, ?_, ?_⟩
    · show (match walkMaxWith (fun st1 c => deepWalk cyc3 n st1 c) ⟨[], []⟩ ["b"] with
        | none => none
        | some (mx, st1) => some (mx + 1, tpush st1 "a" (mx + 1))) = none
      simp [walkMaxWith, ih.2.1]
    · show (match walkMaxWith (fun st1 c => deepWalk cyc3 n st1 c) ⟨[], []⟩ ["c"] with
        | none => none
        | some (mx, st1) => some (mx + 1, tpush st1 "b" (mx + 1))) = none
      simp [walkMaxWith, ih.2.2]
    · show (match walkMaxWith (fun st1 c => deepWalk cyc3 n st1 c) ⟨[], []⟩ ["a"] with
        | none => none
        | some (mx, st1) => some (mx + 1, tpush st1 "c" (mx + 1))) = none
      simp [walkMaxWith, ih.1]

theorem deepWalk_selfLoop_none (fuel : Nat) :
    deepWalk selfLoopGraph fuel ⟨[], []⟩ "a" = none := by
  induction fuel with
  | zero => rfl
  | succ n ih =>
    show (match walkMaxWith (fun st1 c => deepWalk selfLoopGraph n st1 c) ⟨[], []⟩ ["a"] with
      | none => none
      | some (mx, st1) => some (mx + 1, tpush st1 "a" (mx + 1))) = none
    simp [walkMaxWith, ih]

theorem topsortFuel_cyc3_none (fuel : Nat) : topsortFuel cyc3 fuel = none := by
  have h := (deepWalk_cyc3_none fuel).1
  simp only [cyc3] at h
  simp [topsortFuel, topsortFold, cyc3, List.foldlM_cons, h]

/-- Claim C4, counterexample to the claim as stated: on the three node
cycle the topological layering does not detect the revisit and raise a
CyclicDependencyError; it recurses without bound, modelled by the
fuelled run failing for every fuel. -/
theorem topsort_cyc3_no_cycle_error : TopsortDiverges cyc3 :=
  fun fuel => topsortFuel_cyc3_none fuel

/-- Claim C4, amended: the builder itself accepts a self loop (its
registration-time check never fires because the requests set is still
empty when inspected), and on both that builder-produced one-cycle and
the three node cycle the layering traversal recurses without bound for
every recursion budget, raising no error of any kind, exactly the
recursion-limit behaviour the design notes of the spec describe. -/
theorem topsort_cycle_diverges (fuel : Nat) :
    defgraphRun selfLoopRegs = .ok selfLoopGraph ∧
    topsortFuel selfLoopGraph fuel = none ∧
    topsortFuel cyc3 fuel = none := by
  refine ⟨rfl, ?_, topsortFuel_cyc3_none fuel⟩
  have h := deepWalk_selfLoop_none fuel
  have hg : selfLoopGraph = [("a", ⟨some prodN, ["a"], ["a"]⟩)] := rfl
  rw [hg] at h
  simp [topsortFuel, topsortFold, hg, List.foldlM_cons, h]

/-! Claim C5.  The staged driver has no deadlock report: when the ready
set is empty and the graph is not covered it yields an empty job list
and, resumed with an empty result, yields the same empty list again from
an unchanged state, forever. -/

/-- Claim C5, amended: whenever the staged driver computes an empty
ready set while some graph names are unresolved, it does not report any
error; it yields the empty job list, and resuming it with the empty
result set returns it to the identical suspended state, so it yields
empty job lists indefinitely. -/
theorem gen_empty_ready_loops {V : Type} (g : Graph V) (st : GenSt V)
    (h1 : covered g st.got = false) (h2 : newToAsk g st = []) :
    genStep g st [] = .ok (.yield [] st) := by
  simp [genStep, absorb, genEmit, h1, h2, Except.map]

/-- Claim C5, witness for the amended theorem at the one node cyclic
graph with empty bindings. -/
theorem gen_empty_ready_loops_witness :
    genStep stuckGraph ⟨[], []⟩ [] = .ok (.yield [] ⟨[], []⟩) :=
  gen_empty_ready_loops stuckGraph ⟨[], []⟩ rfl rfl

/-- Claim C5, counterexample to the claim as stated: on the one node
cyclic graph with no free variables, the driver starts with an empty
ready set and an uncovered graph, yet instead of reporting a
DeadlockError it yields an empty job list, and yields another one when
resumed with no results. -/
theorem gen_deadlock_not_reported :
    newToAsk stuckGraph ⟨[], []⟩ = [] ∧
    covered stuckGraph ([] : List (Name × Val)) = false ∧
    genStart stuckGraph [] = .ok (.yield [] ⟨[], []⟩) ∧
    genStep stuckGraph ⟨[], []⟩ [] = .ok (.yield [] ⟨[], []⟩) :=
  ⟨rfl, rfl, rfl, rfl⟩

/-! Claim C7.  Forward references: registering a name that so far exists
only as an auto-created dependency entry is rejected by the duplicate
check, because the defaultdict access for the reverse edge already
inserted the name as a key. -/

/-- Claim C7: after registering a with dependency b, the name b is a key
holding only the auto-created entry (value None, no requests, the
reverse edge to a), and the subsequent registration of b itself fails
with the duplicate-name assertion even though b was never registered. -/
theorem builder_rejects_forward_registration :
    (∃ g1 : Graph Val, register [] (some prodN) "a" ["b"] = .ok g1 ∧
      g1.lookup "b" = some ⟨none, [], ["a"]⟩) ∧
    defgraphRun forwardRegs = .error .duplicateNode := by
  refine ⟨⟨[("a", ⟨some prodN, ["b"], []⟩), ("b", ⟨none, [], ["a"]⟩)], rfl, rfl⟩, rfl⟩

/-! Claim C9.  The lazy compiler terminates its scan loop as soon as all
requested names are resolved, leaving stale entries on the work stack,
and then trips over its own final assert len(order) == 0. -/

/-- Claim C9: two valid calls on the demo graph on which the lazy
compiled function ends its loop with a non-empty stack and fails the
final stack-empty assertion instead of returning: requesting the free
variable xs itself (already resolved, never popped), and requesting
(n, var) where n is resolved as a dependency of var while a stale copy
of n is still stacked. -/
theorem lazy_stack_assert_failures :
    lazyFun demoGraph ["xs"] demoKw 20 = some (.error .stackNonEmpty) ∧
    lazyFun demoGraph ["n", "var"] demoKw 20 = some (.error .stackNonEmpty) :=
  ⟨rfl, rfl⟩

/-! Claim C2.  The eager compiled function accumulates only the wave
results into res; the free variables live in the generator's own got
dict and are never part of any wave, so they are absent from the
returned mapping. -/

/-- Claim C2, counterexample to the claim as stated: on the demo graph
with the complete binding of its only free variable xs, the eager
compiled function returns the four producer values and its result has
no key xs, although xs is a name of the graph. -/
theorem eager_omits_free_vars :
    graphFreeVars demoGraph = ["xs"] ∧
    eagerFun demoGraph demoKw 10 = some (.ok demoEagerRes) ∧
    (demoGraph.lookup "xs").isSome = true ∧
    demoEagerRes.lookup "xs" = none :=
  ⟨rfl, rfl, rfl, rfl⟩

/-! Claim C3, counterexample: the three strategies do not return
identical mappings, because the lazy compiler echoes requested free
variables while the other two never include them, and the lazy compiler
may even fail its stack assertion for an unlucky request order. -/

/-- Claim C3, counterexample to the claim as stated: with the same demo
graph and bindings, the eager result has no key xs while the lazy run
requesting all names (in an order it completes on) maps xs to its bound
value, so the two mappings differ; requesting all names in dict order
does not return at all but fails the lazy stack assertion. -/
theorem strategies_differ_on_free_vars :
    eagerFun demoGraph demoKw 10 = some (.ok demoEagerRes) ∧
    lazyFun demoGraph demoAllNames demoKw 40 = some (.ok demoLazyAllRes) ∧
    demoEagerRes.lookup "xs" = none ∧
    demoLazyAllRes.lookup "xs" = some xsVal ∧
    lazyFun demoGraph ["n", "xs", "m", "m2", "var"] demoKw 40 =
      some (.error .stackNonEmpty) :=
  ⟨rfl, rfl, rfl, rfl, rfl⟩

/-! Claim C6, counterexample: the lazy compiled function performs no
up-front completeness check on the bindings; a free variable that is
omitted but not needed for the requested targets is silently ignored
and the call succeeds. -/

/-- Claim C6, counterexample to the claim as stated: the two free
variable graph has free variables x and y; calling the lazy compiled
function for target a with only x bound succeeds instead of failing
with a MissingInputError for y. -/
theorem lazy_ignores_unneeded_missing_free_var :
    defgraphRun twoFreeRegs = .ok twoFreeGraph ∧
    graphFreeVars twoFreeGraph = ["x", "y"] ∧
    lazyFun twoFreeGraph ["a"] [("x", xsVal)] 20 = some (.ok [("a", .num ⟨0, 1⟩)]) :=
  ⟨rfl, rfl, rfl⟩

/-! Claim C8.  The demo scenario values, the exact lazy result for
(m2, n), and the closure property of the lazy work loop: every name it
ever resolves (therefore every producer it invokes) lies in the
transitive dependency closure of the requested names or among the
supplied bindings. -/

theorem lazyWork_closure {V : Type} (g : Graph V) (fv args : List Name)
    (S : Name → Prop) :
    ∀ (fuel : Nat) (order : List Name) (got got2 : List (Name × V)),
      (∀ x ∈ order, InClosure g args x) →
      (∀ n, (got.lookup n).isSome → S n ∨ InClosure g args n) →
      lazyWork g fv args fuel order got = some (.ok got2) →
      ∀ n, (got2.lookup n).isSome → S n ∨ InClosure g args n := by
  intro fuel
  induction fuel with
  | zero =>
    intro order got got2 _ _ h
    simp [lazyWork] at h
  | succ fuel ih =>
    intro order got got2 hord hgot h
    cases order with
    | nil =>
      simp only [lazyWork] at h
      by_cases hall : (args.all fun a => (got.lookup a).isSome) = true
      · rw [if_pos hall] at h
        simp only [List.isEmpty_nil, if_pos] at h
        have : got = got2 := by simpa using h
        subst this
        exact hgot
      · rw [if_neg hall] at h
        simp at h
    | cons item rest =>
      simp only [lazyWork] at h
      have hitem : InClosure g args item := hord item (by simp)
      have hrest : ∀ x ∈ rest, InClosure g args x :=
        fun x hx => hord x (List.mem_cons_of_mem _ hx)
      by_cases hall : (args.all fun a => (got.lookup a).isSome) = true
      · rw [if_pos hall] at h
        simp at h
      · rw [if_neg hall] at h
        by_cases hin : (got.lookup item).isSome = true
        · rw [if_pos hin] at h
          exact ih rest got got2 hrest hgot h
        · rw [if_neg hin] at h
          cases hnode : g.lookup item with
          | none =>
            rw [hnode] at h
            simp at h
          | some node =>
            rw [hnode] at h
            simp only at h
            by_cases hnp : (node.requests.filter fun r => (got.lookup r).isNone).length > 0
            · rw [if_pos hnp] at h
              by_cases hfree :
                  ((node.requests.filter fun r => (got.lookup r).isNone).any
                    fun r => fv.contains r) = true
              · rw [if_pos hfree] at h
                simp at h
              · rw [if_neg hfree] at h
                refine ih _ got got2 ?_ hgot h
                intro x hx
                rcases List.mem_append.mp hx with hx | hx
                · exact InClosure.step item x node hitem hnode
                    (List.mem_of_mem_filter (List.mem_reverse.mp hx))
                · rcases List.mem_cons.mp hx with hx | hx
                  · exact hx ▸ hitem
                  · exact hrest x hx
            · rw [if_neg hnp] at h
              cases hval : node.value with
              | none =>
                rw [hval] at h
                simp at h
              | some f =>
                rw [hval] at h
                refine ih rest _ got2 hrest ?_ h
                intro n hn
                by_cases hni : n = item
                · exact Or.inr (hni ▸ hitem)
                · rw [lookup_cons_ne _ got hni] at hn
                  exact hgot n hn

/-- Claim C8: on the demo graph with xs = range(10) the eager run yields
n = 10, m = 9/2, m2 = 57/2 and var = 33/4 (the spec values 10.0, 4.5,
28.5, 8.25); the lazy run requesting (m2, n) returns exactly the
two-entry mapping, and its final memo dict holds neither m nor var, so
their producers were never invoked; and in general every name the lazy
work loop resolves lies in the supplied bindings or in the transitive
dependency closure of the requested names. -/
theorem lazy_subset_and_demo_values :
    eagerFun demoGraph demoKw 10 = some (.ok demoEagerRes) ∧
    lazyFun demoGraph ["m2", "n"] demoKw 20 =
      some (.ok [("m2", .num ⟨57, 2⟩), ("n", .num ⟨10, 1⟩)]) ∧
    (∃ got2, lazyWork demoGraph (graphFreeVars demoGraph) ["m2", "n"] 20
        ["n", "m2"] demoKw = some (.ok got2) ∧
      got2.lookup "m" = none ∧ got2.lookup "var" = none) ∧
    (∀ (V : Type) (g : Graph V) (fv args : List Name) (fuel : Nat)
        (kw got2 : List (Name × V)),
      lazyWork g fv args fuel args.reverse kw = some (.ok got2) →
      ∀ n, (got2.lookup n).isSome → n ∈ keysOf kw ∨ InClosure g args n) := by
  refine ⟨rfl, rfl,
    ⟨[("m2", .num ⟨57, 2⟩), ("n", .num ⟨10, 1⟩), ("xs", xsVal)], rfl, rfl, rfl⟩, ?_⟩
  intro V g fv args fuel kw got2 h n hn
  refine lazyWork_closure g fv args (fun n => n ∈ keysOf kw) fuel args.reverse kw got2
    ?_ ?_ h n hn
  · intro x hx
    exact InClosure.base x (List.mem_reverse.mp hx)
  · intro n hn
    exact Or.inl ((lookup_isSome_iff_mem_keys kw n).mp hn)

/-- Claim C8, witness: the general closure conjunct applied to the
concrete (m2, n) run on the demo graph at the name n. -/
theorem lazy_subset_and_demo_values_witness :
    "n" ∈ keysOf demoKw ∨ InClosure demoGraph ["m2", "n"] "n" :=
  lazy_subset_and_demo_values.2.2.2 Val demoGraph (graphFreeVars demoGraph)
    ["m2", "n"] 20 demoKw [("m2", .num ⟨57, 2⟩), ("n", .num ⟨10, 1⟩), ("xs", xsVal)]
    rfl "n" (by decide)

/-! Claim C10.  Lemmas about the builder primitives, leading to the
closure invariant of defgraph. -/

theorem ensure_lookup_self {V : Type} (g : Graph V) (k : Name) :
    (ensure g k).lookup k = some ((g.lookup k).getD ⟨none, [], []⟩) := by
  unfold ensure
  cases h : g.lookup k with
  | some nd => simp [h]
  | none =>
    rw [if_neg (by simp [h])]
    rw [lookup_append_right [(k, ⟨none, [], []⟩)] h]
    simp [lookup_cons_self, h]

theorem ensure_lookup_ne {V : Type} (g : Graph V) {j k : Name} (h : j ≠ k) :
    (ensure g k).lookup j = g.lookup j := by
  unfold ensure
  cases hk : g.lookup k with
  | some nd => simp [hk]
  | none =>
    rw [if_neg (by simp [hk])]
    cases hj : g.lookup j with
    | some nd => exact lookup_append_left _ hj
    | none =>
      rw [lookup_append_right [(k, ⟨none, [], []⟩)] hj]
      rw [lookup_cons_ne _ _ h]
      simp

theorem keysOf_ensure {V : Type} (g : Graph V) (k : Name) :
    keysOf (ensure g k) = keysOf g ∨
    ((g.lookup k) = none ∧ keysOf (ensure g k) = keysOf g ++ [k]) := by
  unfold ensure
  cases h : g.lookup k with
  | some nd => simp [h]
  | none =>
    right
    refine ⟨rfl, ?_⟩
    rw [if_neg (by simp)]
    simp [keysOf]

theorem nodup_keys_ensure {V : Type} (g : Graph V) (k : Name)
    (h : (keysOf g).Nodup) : (keysOf (ensure g k)).Nodup := by
  rcases keysOf_ensure g k with he | ⟨hn, he⟩
  · rw [he]; exact h
  · rw [he]
    have : k ∉ keysOf g := by
      intro hk
      have := (lookup_isSome_iff_mem_keys g k).mpr hk
      simp [hn] at this
    simp [List.nodup_append, h, this]

theorem dset_lookup_self {V : Type} (g : Graph V) (k : Name) (nd : Node V)
    (h : (g.lookup k).isSome) : (dset g k nd).lookup k = some nd := by
  induction g with
  | nil => simp at h
  | cons p rest ih =>
    obtain ⟨i, w⟩ := p
    show List.lookup k ((if i = k then (k, nd) else (i, w)) :: dset rest k nd) = some nd
    by_cases hik : i = k
    · rw [if_pos hik]
      exact lookup_cons_self k nd _
    · rw [if_neg hik]
      rw [lookup_cons_ne w (dset rest k nd) (fun hh => hik hh.symm)]
      rw [show ((i, w) :: rest : Graph V).lookup k = rest.lookup k from
        lookup_cons_ne w rest (fun hh => hik hh.symm)] at h
      exact ih h

theorem dset_lookup_ne {V : Type} (g : Graph V) {j k : Name} (nd : Node V)
    (h : j ≠ k) : (dset g k nd).lookup j = g.lookup j := by
  induction g with
  | nil => rfl
  | cons p rest ih =>
    obtain ⟨i, w⟩ := p
    show List.lookup j ((if i = k then (k, nd) else (i, w)) :: dset rest k nd) =
      List.lookup j ((i, w) :: rest)
    by_cases hik : i = k
    · rw [if_pos hik]
      rw [lookup_cons_ne nd (dset rest k nd) h]
      rw [lookup_cons_ne w rest (fun hh => h (hh.trans hik))]
      exact ih
    · rw [if_neg hik]
      by_cases hji : j = i
      · subst hji
        rw [lookup_cons_self, lookup_cons_self]
      · rw [lookup_cons_ne w (dset rest k nd) hji]
        rw [lookup_cons_ne w rest hji]
        exact ih

theorem keysOf_dset {V : Type} (g : Graph V) (k : Name) (nd : Node V) :
    keysOf (dset g k nd) = keysOf g := by
  unfold dset keysOf
  rw [List.map_map]
  apply List.map_congr_left
  intro p _
  by_cases h : p.1 = k
  · simp [h]
  · simp [h]

theorem mem_setUpdate (s xs : List Name) (x : Name) :
    x ∈ setUpdate s xs ↔ x ∈ s ∨ x ∈ xs := by
  induction xs generalizing s with
  | nil => simp [setUpdate]
  | cons y ys ih =>
    show x ∈ setUpdate (if y ∈ s then s else s ++ [y]) ys ↔ _
    rw [ih]
    by_cases hy : y ∈ s
    · rw [if_pos hy]
      constructor
      · rintro (hs | hs)
        · exact Or.inl hs
        · exact Or.inr (List.mem_cons_of_mem _ hs)
      · rintro (hs | hs)
        · exact Or.inl hs
        · rcases List.mem_cons.mp hs with hs | hs
          · exact Or.inl (hs ▸ hy)
          · exact Or.inr hs
    · rw [if_neg hy]
      simp only [List.mem_append, List.mem_singleton, List.mem_cons]
      tauto

theorem registerDeps_ok {V : Type} (name : Name) :
    ∀ (ds : List Name) (g g' : Graph V), registerDeps name ds g = .ok g' →
    (∀ k nd, g.lookup k = some nd → ∃ nd', g'.lookup k = some nd' ∧
        nd'.value = nd.value ∧ nd'.requests = nd.requests) ∧
    (∀ k nd', g'.lookup k = some nd' →
        (∃ nd, g.lookup k = some nd ∧ nd'.value = nd.value ∧
          nd'.requests = nd.requests) ∨
        (k ∈ ds ∧ nd'.value = none ∧ nd'.requests = [])) ∧
    (∀ d ∈ ds, (g'.lookup d).isSome) ∧
    ((keysOf g).Nodup → (keysOf g').Nodup) ∧
    (∀ k, k ∈ keysOf g' → k ∈ keysOf g ∨ k ∈ ds) := by
  intro ds
  induction ds with
  | nil =>
    intro g g' h
    have hg : g = g' := by
      simpa [registerDeps] using h
    subst hg
    exact ⟨fun k nd hk => ⟨nd, hk, rfl, rfl⟩,
      fun k nd' hk => Or.inl ⟨nd', hk, rfl, rfl⟩,
      by simp, fun h => h, fun k hk => Or.inl hk⟩
  | cons dep ds ih =>
    intro g g' h
    simp only [registerDeps] at h
    set g1 := ensure g dep with hg1
    set nd0 := getNode g1 dep with hnd0
    set g2 := dset g1 dep { nd0 with requested := nd0.requested ++ [name] } with hg2
    by_cases hc : name ∈ (getNode g2 dep).requests
    · rw [if_pos hc] at h
      simp at h
    · rw [if_neg hc] at h
      have hnd0v : nd0 = (g.lookup dep).getD ⟨none, [], []⟩ := by
        rw [hnd0]
        unfold getNode
        rw [hg1, ensure_lookup_self]
        rfl
      have hg1dep : (g1.lookup dep).isSome := by
        rw [hg1, ensure_lookup_self]
        rfl
      have hg2dep : g2.lookup dep =
          some { nd0 with requested := nd0.requested ++ [name] } := by
        rw [hg2]
        exact dset_lookup_self g1 dep _ hg1dep
      have hS1 : ∀ k nd, g.lookup k = some nd → ∃ nd2, g2.lookup k = some nd2 ∧
          nd2.value = nd.value ∧ nd2.requests = nd.requests := by
        intro k nd hk
        by_cases hkd : k = dep
        · subst hkd
          refine ⟨{ nd0 with requested := nd0.requested ++ [name] }, hg2dep, ?_, ?_⟩
          · rw [hnd0v, hk]
            rfl
          · rw [hnd0v, hk]
            rfl
        · refine ⟨nd, ?_, rfl, rfl⟩
          rw [hg2, dset_lookup_ne g1 _ hkd, hg1, ensure_lookup_ne g hkd]
          exact hk
      have hS2 : ∀ k nd2, g2.lookup k = some nd2 →
          (∃ nd, g.lookup k = some nd ∧ nd2.value = nd.value ∧
            nd2.requests = nd.requests) ∨
          (k = dep ∧ nd2.value = none ∧ nd2.requests = []) := by
        intro k nd2 hk
        by_cases hkd : k = dep
        · subst hkd
          rw [hg2dep] at hk
          cases hgd : g.lookup k with
          | some nd =>
            left
            refine ⟨nd, rfl, ?_, ?_⟩
            · rw [← Option.some_inj.mp hk, hnd0v, hgd]
              rfl
            · rw [← Option.some_inj.mp hk, hnd0v, hgd]
              rfl
          | none =>
            right
            refine ⟨rfl, ?_, ?_⟩
            · rw [← Option.some_inj.mp hk, hnd0v, hgd]
              rfl
            · rw [← Option.some_inj.mp hk, hnd0v, hgd]
              rfl
        · left
          refine ⟨nd2, ?_, rfl, rfl⟩
          rw [hg2, dset_lookup_ne g1 _ hkd, hg1, ensure_lookup_ne g hkd] at hk
          exact hk
      obtain ⟨h1, h2, h3, h4, h5⟩ := ih g2 g' h
      refine ⟨?_, ?_, ?_, ?_, ?_⟩
      · intro k nd hk
        obtain ⟨nd2, hk2, hv2, hr2⟩ := hS1 k nd hk
        obtain ⟨nd', hk', hv', hr'⟩ := h1 k nd2 hk2
        exact ⟨nd', hk', hv'.trans hv2, hr'.trans hr2⟩
      · intro k nd' hk'
        rcases h2 k nd' hk' with ⟨nd2, hk2, hv2, hr2⟩ | ⟨hin, hv, hr⟩
        · rcases hS2 k nd2 hk2 with ⟨nd, hk, hv, hr⟩ | ⟨hkd, hv, hr⟩
          · exact Or.inl ⟨nd, hk, hv2.trans hv, hr2.trans hr⟩
          · exact Or.inr ⟨hkd ▸ List.mem_cons_self dep ds, hv2.trans hv, hr2.trans hr⟩
        · exact Or.inr ⟨List.mem_cons_of_mem _ hin, hv, hr⟩
      · intro d hd
        rcases List.mem_cons.mp hd with hd | hd
        · subst hd
          obtain ⟨nd', hk', _, _⟩ := h1 d _ hg2dep
          simp [hk']
        · exact h3 d hd
      · intro hnd
        apply h4
        rw [hg2, keysOf_dset]
        exact nodup_keys_ensure g dep hnd
      · intro k hk
        rcases h5 k hk with hk | hk
        · rw [hg2, keysOf_dset, hg1] at hk
          rcases keysOf_ensure g dep with he | ⟨_, he⟩
          · rw [he] at hk
            exact Or.inl hk
          · rw [he] at hk
            rcases List.mem_append.mp hk with hk | hk
            · exact Or.inl hk
            · exact Or.inr (List.mem_singleton.mp hk ▸ List.mem_cons_self dep ds)
        · exact Or.inr (List.mem_cons_of_mem _ hk)

theorem register_ok {V : Type} (g : Graph V) (v : Option (List (Name × V) → V))
    (name : Name) (deps : List Name) (g' : Graph V)
    (h : register g v name deps = .ok g') :
    g.lookup name = none ∧
    (∃ reqd, g'.lookup name = some ⟨v, setUpdate [] deps, reqd⟩) ∧
    (∀ k nd, k ≠ name → g.lookup k = some nd → ∃ nd', g'.lookup k = some nd' ∧
        nd'.value = nd.value ∧ nd'.requests = nd.requests) ∧
    (∀ k nd', k ≠ name → g'.lookup k = some nd' →
        (∃ nd, g.lookup k = some nd ∧ nd'.value = nd.value ∧
          nd'.requests = nd.requests) ∨
        (k ∈ deps ∧ nd'.value = none ∧ nd'.requests = [])) ∧
    (∀ d ∈ deps, (g'.lookup d).isSome) ∧
    ((keysOf g).Nodup → (keysOf g').Nodup) ∧
    (∀ k, k ∈ keysOf g' → k ∈ keysOf g ∨ k = name ∨ k ∈ deps) := by
  simp only [register] at h
  by_cases hdup : (g.lookup name).isSome = true
  · rw [if_pos hdup] at h
    simp at h
  · rw [if_neg hdup] at h
    have hname : g.lookup name = none := by
      cases hg : g.lookup name with
      | none => rfl
      | some nd => rw [hg] at hdup; simp at hdup
    set g1 := ensure g name with hg1
    have hg1name : g1.lookup name = some ⟨none, [], []⟩ := by
      rw [hg1, ensure_lookup_self, hname]
      rfl
    have hgn0 : getNode g1 name = ⟨none, [], []⟩ := by
      unfold getNode
      rw [hg1name]
      rfl
    rw [hgn0] at h
    set g2 := dset g1 name ⟨v, [], []⟩ with hg2
    have hg2name : g2.lookup name = some ⟨v, [], []⟩ := by
      rw [hg2]
      exact dset_lookup_self g1 name _ (by simp [hg1name])
    cases hrd : registerDeps name deps (dset g1 name { value := v, requests := [], requested := [] }) with
    | error e =>
      rw [hrd] at h
      simp at h
    | ok g3 =>
      rw [hrd] at h
      rw [← hg2] at hrd
      obtain ⟨h1, h2, h3, h4, h5⟩ := registerDeps_ok name deps g2 g3 hrd
      obtain ⟨nd3, hnd3, hnd3v, hnd3r⟩ := h1 name _ hg2name
      have hg3some : (g3.lookup name).isSome := by simp [hnd3]
      have hgn3 : getNode g3 name = nd3 := by
        unfold getNode
        rw [hnd3]
        rfl
      have hgval : g' = dset g3 name
          { nd3 with requests := setUpdate nd3.requests deps } := by
        rw [← hgn3]
        exact (Except.ok.inj h).symm
      refine ⟨hname, ?_, ?_, ?_, ?_, ?_, ?_⟩
      · refine ⟨nd3.requested, ?_⟩
        rw [hgval, dset_lookup_self g3 name _ hg3some]
        have : ({ nd3 with requests := setUpdate nd3.requests deps } : Node V) =
            ⟨v, setUpdate [] deps, nd3.requested⟩ := by
          rw [show nd3.requests = ([] : List Name) from hnd3r]
          cases nd3 with
          | mk a b c =>
            simp at hnd3v hnd3r
            simp [hnd3v, hnd3r]
        rw [this]
      · intro k nd hk hgk
        have hg2k : g2.lookup k = some nd := by
          rw [hg2, dset_lookup_ne g1 _ hk, hg1, ensure_lookup_ne g hk]
          exact hgk
        obtain ⟨nd', hk', hv', hr'⟩ := h1 k nd hg2k
        refine ⟨nd', ?_, hv', hr'⟩
        rw [hgval, dset_lookup_ne g3 _ hk]
        exact hk'
      · intro k nd' hk hk'
        rw [hgval, dset_lookup_ne g3 _ hk] at hk'
        rcases h2 k nd' hk' with ⟨nd2, hk2, hv2, hr2⟩ | ⟨hin, hv, hr⟩
        · left
          rw [hg2, dset_lookup_ne g1 _ hk, hg1, ensure_lookup_ne g hk] at hk2
          exact ⟨nd2, hk2, hv2, hr2⟩
        · exact Or.inr ⟨hin, hv, hr⟩
      · intro d hd
        have := h3 d hd
        by_cases hdk : d = name
        · subst hdk
          rw [hgval]
          simp [dset_lookup_self g3 d _ hg3some]
        · rw [hgval, dset_lookup_ne g3 _ hdk]
          exact this
      · intro hnd
        have : (keysOf g2).Nodup := by
          rw [hg2, keysOf_dset, hg1]
          exact nodup_keys_ensure g name hnd
        have := h4 this
        rw [hgval, keysOf_dset]
        exact this
      · intro k hk
        rw [hgval, keysOf_dset] at hk
        rcases h5 k hk with hk | hk
        · rw [hg2, keysOf_dset, hg1] at hk
          rcases keysOf_ensure g name with he | ⟨_, he⟩
          · rw [he] at hk
            exact Or.inl hk
          · rw [he] at hk
            rcases List.mem_append.mp hk with hk | hk
            · exact Or.inl hk
            · exact Or.inr (Or.inl (List.mem_singleton.mp hk))
        · exact Or.inr (Or.inr hk)

theorem lookup_of_mem_nodup {α : Type} :
    ∀ {l : List (Name × α)}, (keysOf l).Nodup →
    ∀ {k : Name} {v : α}, (k, v) ∈ l → l.lookup k = some v := by
  intro l
  induction l with
  | nil =>
    intro _ k v hm
    simp at hm
  | cons p rest ih =>
    intro h k v hm
    obtain ⟨i, w⟩ := p
    have hnd : (keysOf rest).Nodup := by
      simp only [keysOf, List.map_cons] at h
      exact (List.nodup_cons.mp h).2
    have hhead : i ∉ keysOf rest := by
      simp only [keysOf, List.map_cons] at h
      exact (List.nodup_cons.mp h).1
    rcases List.mem_cons.mp hm with hm2 | hm2
    · rw [show k = i from congrArg Prod.fst hm2, show v = w from congrArg Prod.snd hm2]
      exact lookup_cons_self i w rest
    · have hki : k ≠ i := by
        intro he
        exact hhead (he ▸ List.mem_map.mpr ⟨(k, v), hm2, rfl⟩)
      rw [lookup_cons_ne w rest hki]
      exact ih hnd hm2

theorem defgraph_fold_inv {V : Type} :
    ∀ (regs : List (Reg V)) (g0 g : Graph V),
    (keysOf g0).Nodup →
    (∀ k nd, g0.lookup k = some nd → ∀ d ∈ nd.requests, (g0.lookup d).isSome) →
    List.foldlM (fun g r => register g r.1 r.2.1 r.2.2) g0 regs = .ok g →
    (keysOf g).Nodup ∧
    (∀ k nd, g.lookup k = some nd → ∀ d ∈ nd.requests, (g.lookup d).isSome) ∧
    (∀ d, (∃ r ∈ regs, d ∈ r.2.2) → (g.lookup d).isSome) ∧
    (∀ k nd', g.lookup k = some nd' → (∀ r ∈ regs, r.2.1 ≠ k) →
       (∃ nd, g0.lookup k = some nd ∧ nd'.value = nd.value ∧
         nd'.requests = nd.requests) ∨
       (nd'.value = none ∧ nd'.requests = [])) ∧
    (∀ k, (g0.lookup k).isSome → (g.lookup k).isSome) := by
  intro regs
  induction regs with
  | nil =>
    intro g0 g h1 h2 h
    have : g0 = g := Except.ok.inj h
    subst this
    refine ⟨h1, h2, by simp, ?_, fun k hk => hk⟩
    intro k nd' hk _
    exact Or.inl ⟨nd', hk, rfl, rfl⟩
  | cons r rest ih =>
    intro g0 g h1 h2 h
    rw [List.foldlM_cons] at h
    cases hreg : register g0 r.1 r.2.1 r.2.2 with
    | error e =>
      rw [hreg] at h
      exact Except.noConfusion h
    | ok g1 =>
      rw [hreg] at h
      replace h : List.foldlM (fun g r => register g r.1 r.2.1 r.2.2) g1 rest = .ok g := h
      obtain ⟨hname, ⟨reqd, hR1⟩, hR2a, hR2b, hR3, hR4, hR5⟩ :=
        register_ok g0 r.1 r.2.1 r.2.2 g1 hreg
      have hPM : ∀ k, (g0.lookup k).isSome → (g1.lookup k).isSome := by
        intro k hk
        by_cases hkn : k = r.2.1
        · subst hkn
          rw [hname] at hk
          simp at hk
        · cases hg0 : g0.lookup k with
          | none => rw [hg0] at hk; simp at hk
          | some nd =>
            obtain ⟨nd', hk', _, _⟩ := hR2a k nd hkn hg0
            simp [hk']
      have hH1 : (keysOf g1).Nodup := hR4 h1
      have hH2 : ∀ k nd, g1.lookup k = some nd → ∀ d ∈ nd.requests,
          (g1.lookup d).isSome := by
        intro k nd hk d hd
        by_cases hkn : k = r.2.1
        · subst hkn
          rw [hR1] at hk
          rw [← Option.some_inj.mp hk] at hd
          have : d ∈ r.2.2 := by
            rcases (mem_setUpdate [] r.2.2 d).mp hd with hh | hh
            · simp at hh
            · exact hh
          exact hR3 d this
        · rcases hR2b k nd hkn hk with ⟨nd0, hk0, _, hr0⟩ | ⟨_, _, hr0⟩
          · rw [hr0] at hd
            have := h2 k nd0 hk0 d hd
            exact hPM d this
          · rw [hr0] at hd
            simp at hd
      obtain ⟨gA, gB, gC, gD, gE⟩ := ih g1 g hH1 hH2 h
      refine ⟨gA, gB, ?_, ?_, ?_⟩
      · intro d hd
        obtain ⟨rr, hrr, hdm⟩ := hd
        rcases List.mem_cons.mp hrr with hrr | hrr
        · subst hrr
          exact gE d (hR3 d hdm)
        · exact gC d ⟨rr, hrr, hdm⟩
      · intro k nd' hk hnr
        have hnr1 : r.2.1 ≠ k := hnr r (List.mem_cons_self r rest)
        have hnrest : ∀ rr ∈ rest, rr.2.1 ≠ k :=
          fun rr hrr => hnr rr (List.mem_cons_of_mem _ hrr)
        rcases gD k nd' hk hnrest with ⟨nd1, hk1, hv1, hr1⟩ | hnone
        · rcases hR2b k nd1 (fun hh => hnr1 hh.symm) hk1 with
            ⟨nd0, hk0, hv0, hr0⟩ | ⟨_, hv0, hr0⟩
          · exact Or.inl ⟨nd0, hk0, hv1.trans hv0, hr1.trans hr0⟩
          · exact Or.inr ⟨hv1.trans hv0, hr1.trans hr0⟩
        · exact Or.inr hnone
      · intro k hk
        exact gE k (hPM k hk)

/-- Claim C10: every graph the builder returns is closed (each requested
name is a key), and a dependency name that is never itself registered is
materialized as a node with producer None and empty requests and is
reported by graph_free_vars. -/
theorem defgraph_closed_materializes_free_vars {V : Type}
    (regs : List (Reg V)) (g : Graph V) (h : defgraphRun regs = .ok g) :
    GoodGraph g ∧ Closed g ∧
    (∀ r ∈ regs, ∀ d ∈ r.2.2, (g.lookup d).isSome) ∧
    (∀ d nd, g.lookup d = some nd → (∀ r ∈ regs, r.2.1 ≠ d) →
       nd.value = none ∧ nd.requests = [] ∧ d ∈ graphFreeVars g) := by
  obtain ⟨gA, gB, gC, gD, _⟩ := defgraph_fold_inv regs [] g (by simp [keysOf])
    (by intro k nd hk; simp at hk) h
  refine ⟨gA, ?_, ?_, ?_⟩
  · intro p hp d hd
    have := lookup_of_mem_nodup gA (show (p.1, p.2) ∈ g from by simpa using hp)
    exact gB p.1 p.2 this d hd
  · intro r hr d hd
    exact gC d ⟨r, hr, hd⟩
  · intro d nd hk hnr
    rcases gD d nd hk hnr with ⟨nd0, hk0, _, _⟩ | ⟨hv, hr⟩
    · simp at hk0
    · refine ⟨hv, hr, ?_⟩
      unfold graphFreeVars
      refine List.mem_map.mpr ⟨(d, nd), ?_, rfl⟩
      refine List.mem_filter.mpr ⟨lookup_mem hk, ?_⟩
      simp [hv]

/-- Claim C10, witness: on the demo registrations the builder output is
closed, and its never-registered dependency xs is a producer-less node
with empty requests reported as a free variable. -/
theorem defgraph_closed_materializes_free_vars_witness :
    Closed demoGraph ∧ "xs" ∈ graphFreeVars demoGraph := by
  obtain ⟨_, hcl, _, hfree⟩ :=
    defgraph_closed_materializes_free_vars demoRegs demoGraph rfl
  refine ⟨hcl, ?_⟩
  refine (hfree "xs" ⟨none, [], ["n", "m", "m2"]⟩ rfl ?_).2.2
  intro r hr
  simp only [demoRegs, List.mem_cons] at hr
  rcases hr with hr | hr | hr | hr | hr <;>
    first
      | (rw [hr]; decide)
      | simp at hr

/-! Machinery for the evaluation strategy claims: auxiliary dictionary
lemmas, the staged-driver invariants, and the uniqueness of consistent
bindings on acyclic graphs. -/

theorem lookup_none_iff {α : Type} (l : List (Name × α)) (k : Name) :
    l.lookup k = none ↔ k ∉ keysOf l := by
  rw [← lookup_isSome_iff_mem_keys]
  cases l.lookup k <;> simp

theorem envOf_congr {V : Type} {got1 got2 : List (Name × V)} {reqs : List Name}
    (h : ∀ d ∈ reqs, got1.lookup d = got2.lookup d) :
    envOf got1 reqs = envOf got2 reqs := by
  unfold envOf
  induction reqs with
  | nil => rfl
  | cons d ds ih =>
    rw [List.filterMap_cons, List.filterMap_cons, h d (by simp)]
    rw [ih (fun x hx => h x (List.mem_cons_of_mem _ hx))]

theorem lookup_cons_fresh {V : Type} {got : List (Name × V)} {k : Name} {v : V}
    (hk : got.lookup k = none) {n : Name} (hn : (got.lookup n).isSome) :
    ((k, v) :: got).lookup n = got.lookup n := by
  have hnk : n ≠ k := by
    intro he
    rw [he, hk] at hn
    simp at hn
  exact lookup_cons_ne v got hnk

theorem lookup_reverse {α : Type} {l : List (Name × α)}
    (h : (keysOf l).Nodup) (k : Name) : l.reverse.lookup k = l.lookup k := by
  have hrev : (keysOf l.reverse).Nodup := by
    unfold keysOf
    rw [List.map_reverse]
    exact (List.nodup_reverse).mpr h
  cases hl : l.lookup k with
  | some v =>
    exact lookup_of_mem_nodup hrev (List.mem_reverse.mpr (lookup_mem hl))
  | none =>
    rw [lookup_none_iff] at hl ⊢
    intro hm
    apply hl
    unfold keysOf at hm ⊢
    rw [List.map_reverse, List.mem_reverse] at hm
    exact hm

theorem lookup_append_fresh {V : Type} {pre got : List (Name × V)} {n : Name}
    (hn : (got.lookup n).isSome) (hdisj : ∀ p ∈ pre, got.lookup p.1 = none) :
    (pre ++ got).lookup n = got.lookup n := by
  apply lookup_append_right
  rw [lookup_none_iff]
  intro hm
  obtain ⟨p, hp, hpk⟩ := List.mem_map.mp hm
  rw [← hpk] at hn
  rw [hdisj p hp] at hn
  simp at hn

theorem runJobs_ok {V : Type} :
    ∀ (jobs : List (Job V)) (ws : List (Name × V)), runJobs jobs = .ok ws →
    ws.map Prod.fst = jobs.map Prod.fst ∧
    (∀ p ∈ ws, ∃ j ∈ jobs, ∃ f, j.1 = p.1 ∧ j.2.1 = some f ∧ p.2 = f j.2.2) := by
  intro jobs
  induction jobs with
  | nil =>
    intro ws h
    have : ([] : List (Name × V)) = ws := Except.ok.inj h
    subst this
    simp
  | cons j js ih =>
    intro ws h
    unfold runJobs at h
    cases hv : j.2.1 with
    | none =>
      rw [hv] at h
      exact Except.noConfusion h
    | some f =>
      rw [hv] at h
      cases hjs : runJobs js with
      | error e =>
        rw [hjs] at h
        exact Except.noConfusion h
      | ok ws0 =>
        rw [hjs] at h
        have : ((j.1, f j.2.2) :: ws0) = ws := Except.ok.inj h
        subst this
        obtain ⟨ih1, ih2⟩ := ih ws0 hjs
        constructor
        · simp [ih1]
        · intro p hp
          rcases List.mem_cons.mp hp with hp | hp
          · exact ⟨j, by simp, f, by simp [hp], by simp [hv], by simp [hp]⟩
          · obtain ⟨j0, hj0, f0, h1, h2, h3⟩ := ih2 p hp
            exact ⟨j0, List.mem_cons_of_mem _ hj0, f0, h1, h2, h3⟩

theorem absorb_ok {V : Type} :
    ∀ (l : List (Name × V)) (st st' : GenSt V),
      absorb st l = .ok st' → st.waiting.Nodup →
      st'.got = l.reverse ++ st.got ∧ st'.waiting.Nodup ∧
      (∀ k, k ∈ st'.waiting ↔ (k ∈ st.waiting ∧ k ∉ keysOf l)) ∧
      (∀ p ∈ l, p.1 ∈ st.waiting) := by
  intro l
  induction l with
  | nil =>
    intro st st' h hnd
    have : st = st' := Except.ok.inj h
    subst this
    refine ⟨by simp, hnd, ?_, by simp⟩
    intro k
    simp [keysOf]
  | cons p rest ih =>
    intro st st' h hnd
    obtain ⟨k, v⟩ := p
    unfold absorb at h
    by_cases hk : st.waiting.contains k = true
    · rw [if_pos hk] at h
      have hkmem : k ∈ st.waiting := List.mem_of_elem_eq_true hk
      have hnd1 : (st.waiting.erase k).Nodup := hnd.erase k
      obtain ⟨ih1, ih2, ih3, ih4⟩ :=
        ih ⟨(k, v) :: st.got, st.waiting.erase k⟩ st' h hnd1
      refine ⟨?_, ih2, ?_, ?_⟩
      · rw [ih1]
        simp
      · intro k2
        rw [ih3 k2]
        constructor
        · rintro ⟨hw, hnk⟩
          have := (hnd.mem_erase_iff).mp hw
          exact ⟨this.2, by
            simp only [keysOf, List.map_cons, List.mem_cons]
            push_neg
            exact ⟨this.1, hnk⟩⟩
        · rintro ⟨hw, hnk⟩
          simp only [keysOf, List.map_cons, List.mem_cons] at hnk
          push_neg at hnk
          exact ⟨(hnd.mem_erase_iff).mpr ⟨hnk.1, hw⟩, hnk.2⟩
      · intro p hp
        rcases List.mem_cons.mp hp with hp | hp
        · rw [hp]
          exact hkmem
        · have := ih4 p hp
          exact (hnd.mem_erase_iff.mp this).2
    · rw [if_neg hk] at h
      exact Except.noConfusion h

theorem consistent_agree {V : Type} {g : Graph V} {rk : Name → Nat}
    (hrk : RankFn g rk) {kw got1 got2 : List (Name × V)}
    (h1 : Consistent g kw got1) (h2 : Consistent g kw got2) :
    ∀ n v1 v2, got1.lookup n = some v1 → got2.lookup n = some v2 → v1 = v2 := by
  have main : ∀ (N : Nat) (n : Name), rk n < N → ∀ v1 v2,
      got1.lookup n = some v1 → got2.lookup n = some v2 → v1 = v2 := by
    intro N
    induction N with
    | zero =>
      intro n hn
      exact absurd hn (Nat.not_lt_zero _)
    | succ N ihN =>
      intro n hn v1 v2 hv1 hv2
      obtain ⟨node, hnode, hc1⟩ := h1 n v1 hv1
      obtain ⟨node2, hnode2, hc2⟩ := h2 n v2 hv2
      rw [hnode] at hnode2
      rw [← Option.some_inj.mp hnode2] at hc2
      cases hval : node.value with
      | none =>
        rw [hval] at hc1 hc2
        simp only at hc1 hc2
        rw [hc1] at hc2
        exact Option.some_inj.mp hc2
      | some f =>
        rw [hval] at hc1 hc2
        simp only at hc1 hc2
        obtain ⟨hd1, he1⟩ := hc1
        obtain ⟨hd2, he2⟩ := hc2
        rw [he1, he2]
        have henv : envOf got1 node.requests = envOf got2 node.requests := by
          apply envOf_congr
          intro d hd
          have hrkd : rk d < rk n := hrk (n, node) (lookup_mem hnode) d hd
          cases hg1 : got1.lookup d with
          | none =>
            have := hd1 d hd
            rw [hg1] at this
            simp at this
          | some w1 =>
            cases hg2 : got2.lookup d with
            | none =>
              have := hd2 d hd
              rw [hg2] at this
              simp at this
            | some w2 =>
              rw [ihN d (by omega) w1 w2 hg1 hg2]
        rw [henv]
  intro n v1 v2 hv1 hv2
  exact main (rk n + 1) n (Nat.lt_succ_self _) v1 v2 hv1 hv2

theorem mem_freeVars_iff {V : Type} {g : Graph V} (hgood : GoodGraph g) (n : Name) :
    n ∈ graphFreeVars g ↔ ∃ node, g.lookup n = some node ∧ node.value = none := by
  constructor
  · intro h
    obtain ⟨p, hp, hpk⟩ := List.mem_map.mp h
    obtain ⟨hpg, hpv⟩ := List.mem_filter.mp hp
    refine ⟨p.2, ?_, ?_⟩
    · rw [← hpk]
      exact lookup_of_mem_nodup hgood (show (p.1, p.2) ∈ g by simpa using hpg)
    · simpa using hpv
  · rintro ⟨node, hl, hv⟩
    refine List.mem_map.mpr ⟨(n, node), List.mem_filter.mpr ⟨lookup_mem hl, ?_⟩, rfl⟩
    simp [hv]

theorem stInv_init {V : Type} {g : Graph V} (hgood : GoodGraph g)
    {kw : List (Name × V)}
    (hass : assertFreeVars (graphFreeVars g) kw = true) :
    StInv g kw ⟨kw, []⟩ := by
  have hkwfree : ∀ n, (kw.lookup n).isSome → n ∈ graphFreeVars g := by
    intro n hn
    cases hl : kw.lookup n with
    | none => rw [hl] at hn; simp at hn
    | some v =>
      have hm := lookup_mem hl
      have := (List.all_eq_true.mp hass) (n, v) hm
      exact List.mem_of_elem_eq_true this
  refine ⟨?_, ?_, ?_, ?_, ?_⟩
  · intro n v hl
    have hfree := hkwfree n (by simp [hl])
    obtain ⟨node, hnode, hval⟩ := (mem_freeVars_iff hgood n).mp hfree
    refine ⟨node, hnode, ?_⟩
    rw [hval]
    exact hl
  · intro n hn
    have hfree := hkwfree n hn
    obtain ⟨node, hnode, _⟩ := (mem_freeVars_iff hgood n).mp hfree
    exact (lookup_isSome_iff_mem_keys g n).mp (by simp [hnode])
  · intro n _
    rfl
  · intro k hk
    simp at hk
  · exact List.nodup_nil

theorem genEmit_done {V : Type} {g : Graph V} {st : GenSt V}
    (h : genEmit g st = .done) : covered g st.got = true := by
  unfold genEmit at h
  by_cases hc : covered g st.got = true
  · exact hc
  · rw [if_neg hc] at h
    exact GenOut.noConfusion h

theorem covered_mem {V : Type} {g : Graph V} {got : List (Name × V)}
    (h : covered g got = true) {n : Name} (hn : n ∈ keysOf g) :
    (got.lookup n).isSome := by
  unfold covered at h
  have h1 := Bool.and_elim_left h
  obtain ⟨p, hp, hpk⟩ := List.mem_map.mp hn
  have := List.all_eq_true.mp h1 p hp
  rw [← hpk]
  exact this

theorem genEmit_yield {V : Type} {g : Graph V} {kw : List (Name × V)}
    (hgood : GoodGraph g) {st : GenSt V} {jobs : List (Job V)} {st2 : GenSt V}
    (hst : StInv g kw st) (h : genEmit g st = .yield jobs st2) :
    st2.got = st.got ∧ StInv g kw st2 ∧ covered g st.got = false ∧
    (jobs.map Prod.fst).Nodup ∧
    (∀ j ∈ jobs, ∃ node, g.lookup j.1 = some node ∧ j.2.1 = node.value ∧
      (∀ d ∈ node.requests, (st.got.lookup d).isSome) ∧
      j.2.2 = envOf st.got node.requests ∧ st.got.lookup j.1 = none ∧
      j.1 ∉ st.waiting ∧ j.1 ∈ st2.waiting) ∧
    (∀ k ∈ st.waiting, k ∈ st2.waiting) := by
  obtain ⟨hcons, hkeys, hkw, hwait, hwnd⟩ := hst
  unfold genEmit at h
  by_cases hc : covered g st.got = true
  · rw [if_pos hc] at h
    exact GenOut.noConfusion h
  · rw [if_neg hc] at h
    obtain ⟨hjobs, hst2⟩ := GenOut.yield.inj h
    have hask : ∀ k ∈ newToAsk g st, ∃ node, g.lookup k = some node ∧
        st.got.lookup k = none ∧ k ∉ st.waiting ∧
        (∀ d ∈ node.requests, (st.got.lookup d).isSome) := by
      intro k hk
      obtain ⟨p, hp, hpk⟩ := List.mem_map.mp hk
      obtain ⟨hpg, hcond⟩ := List.mem_filter.mp hp
      rw [Bool.and_eq_true, Bool.and_eq_true] at hcond
      obtain ⟨⟨hc1, hc2⟩, hc3⟩ := hcond
      refine ⟨p.2, ?_, ?_, ?_, ?_⟩
      · rw [← hpk]
        exact lookup_of_mem_nodup hgood (show (p.1, p.2) ∈ g by simpa using hpg)
      · rw [← hpk]
        exact Option.isNone_iff_eq_none.mp (by simpa using hc1)
      · rw [← hpk]
        intro hmem
        rw [Bool.not_eq_true'] at hc2
        rw [show (st.waiting.contains p.1) = true from
          List.elem_eq_true_of_mem hmem] at hc2
        exact Bool.noConfusion hc2
      · intro d hd
        exact List.all_eq_true.mp hc3 d hd
    have hasknd : (newToAsk g st).Nodup := by
      have hsub : List.Sublist ((g.filter (fun p =>
          (st.got.lookup p.1).isNone &&
          !(st.waiting.contains p.1) &&
          p.2.requests.all (fun w => (st.got.lookup w).isSome))).map Prod.fst)
          (g.map Prod.fst) := (List.filter_sublist g).map Prod.fst
      exact hgood.sublist hsub
    have haskdisj : ∀ k ∈ newToAsk g st, k ∉ st.waiting := by
      intro k hk
      exact ((hask k hk).choose_spec).2.2.1
    refine ⟨by rw [← hst2], ?_, by simpa using hc, ?_, ?_, ?_⟩
    · rw [← hst2]
      refine ⟨hcons, hkeys, hkw, ?_, ?_⟩
      · intro k hk
        rcases List.mem_append.mp hk with hk | hk
        · exact hwait k hk
        · obtain ⟨node, hnode, hnone, _, _⟩ := hask k hk
          exact ⟨hnone, (lookup_isSome_iff_mem_keys g k).mp (by simp [hnode])⟩
      · refine List.Nodup.append hwnd hasknd ?_
        intro a ha hb
        exact haskdisj a hb ha
    · rw [← hjobs]
      simp only [List.map_map]
      rw [show (Prod.fst ∘ fun k =>
        (k, (getNode g k).value, envOf st.got (getNode g k).requests)) = id by
          funext x
          rfl]
      simpa using hasknd
    · intro j hj
      rw [← hjobs] at hj
      obtain ⟨k, hk, hkj⟩ := List.mem_map.mp hj
      obtain ⟨node, hnode, hnone, hnw, hdeps⟩ := hask k hk
      have hgn : getNode g k = node := by
        unfold getNode
        rw [hnode]
        rfl
      refine ⟨node, ?_, ?_, ?_, ?_, ?_, ?_, ?_⟩
      · rw [← hkj]
        exact hnode
      · rw [← hkj]
        simp [hgn]
      · exact hdeps
      · rw [← hkj]
        simp [hgn]
      · rw [← hkj]
        exact hnone
      · rw [← hkj]
        exact hnw
      · rw [← hkj, ← hst2]
        simp only [List.mem_append]
        exact Or.inr hk
    · intro k hk
      rw [← hst2]
      simp only [List.mem_append]
      exact Or.inl hk

theorem absorb_wave {V : Type} {g : Graph V} {kw : List (Name × V)}
    {st st1 : GenSt V} {ws : List (Name × V)}
    (hst : StInv g kw st)
    (hnd : (keysOf ws).Nodup)
    (hws : ∀ p ∈ ws, p.1 ∈ st.waiting ∧ ∃ node f, g.lookup p.1 = some node ∧
        node.value = some f ∧ (∀ d ∈ node.requests, (st.got.lookup d).isSome) ∧
        p.2 = f (envOf st.got node.requests))
    (h : absorb st ws = .ok st1) :
    StInv g kw st1 ∧
    (∀ n, (st.got.lookup n).isSome → st1.got.lookup n = st.got.lookup n) ∧
    (∀ p ∈ ws, st1.got.lookup p.1 = some p.2) ∧
    (∀ n, (st1.got.lookup n).isSome ↔ ((st.got.lookup n).isSome ∨ n ∈ keysOf ws)) := by
  obtain ⟨hcons, hkeys, hkw, hwait, hwnd⟩ := hst
  obtain ⟨hgot1, hwnd1, hwmem1, _⟩ := absorb_ok ws st st1 h hwnd
  have hfresh : ∀ p ∈ ws.reverse, st.got.lookup p.1 = none := by
    intro p hp
    exact (hwait p.1 ((hws p (List.mem_reverse.mp hp)).1)).1
  have hrevkeys : ∀ n, n ∉ keysOf ws → (ws.reverse : List (Name × V)).lookup n = none := by
    intro n hn
    rw [lookup_none_iff]
    intro hm
    apply hn
    unfold keysOf at hm ⊢
    rw [List.map_reverse, List.mem_reverse] at hm
    exact hm
  have hpres : ∀ n, (st.got.lookup n).isSome → st1.got.lookup n = st.got.lookup n := by
    intro n hn
    rw [hgot1]
    exact lookup_append_fresh hn hfresh
  have hwsval : ∀ p ∈ ws, st1.got.lookup p.1 = some p.2 := by
    intro p hp
    rw [hgot1]
    apply lookup_append_left
    rw [lookup_reverse hnd]
    exact lookup_of_mem_nodup hnd (show (p.1, p.2) ∈ ws by simpa using hp)
  have hiff : ∀ n, (st1.got.lookup n).isSome ↔
      ((st.got.lookup n).isSome ∨ n ∈ keysOf ws) := by
    intro n
    constructor
    · intro hn
      by_cases hm : n ∈ keysOf ws
      · exact Or.inr hm
      · left
        rw [hgot1, lookup_append_right _ (hrevkeys n hm)] at hn
        exact hn
    · rintro (hn | hn)
      · rw [hpres n hn]
        exact hn
      · obtain ⟨p, hp, hpk⟩ := List.mem_map.mp hn
        rw [← hpk, hwsval p hp]
        rfl
  have hwkw : ∀ p ∈ ws, kw.lookup p.1 = none := by
    intro p hp
    cases hl : kw.lookup p.1 with
    | none => rfl
    | some v =>
      have := hkw p.1 (by simp [hl])
      rw [hl] at this
      rw [(hwait p.1 ((hws p hp).1)).1] at this
      exact Option.noConfusion this
  refine ⟨⟨?_, ?_, ?_, ?_, hwnd1⟩, hpres, hwsval, hiff⟩
  · intro n v hl
    by_cases hm : n ∈ keysOf ws
    · obtain ⟨p, hp, hpk⟩ := List.mem_map.mp hm
      subst hpk
      rw [hwsval p hp] at hl
      obtain ⟨_, node, f, hnode, hval, hdeps, hv⟩ := hws p hp
      refine ⟨node, hnode, ?_⟩
      rw [hval]
      refine ⟨?_, ?_⟩
      · intro d hd
        rw [hpres d (hdeps d hd)]
        exact hdeps d hd
      · rw [← Option.some_inj.mp hl, hv]
        congr 1
        apply envOf_congr
        intro d hd
        exact (hpres d (hdeps d hd)).symm
    · rw [hgot1, lookup_append_right _ (hrevkeys n hm)] at hl
      obtain ⟨node, hnode, hrest⟩ := hcons n v hl
      refine ⟨node, hnode, ?_⟩
      cases hval : node.value with
      | none =>
        rw [hval] at hrest
        exact hrest
      | some f =>
        rw [hval] at hrest
        obtain ⟨hdeps, hv⟩ := hrest
        refine ⟨?_, ?_⟩
        · intro d hd
          rw [hpres d (hdeps d hd)]
          exact hdeps d hd
        · rw [hv]
          congr 1
          apply envOf_congr
          intro d hd
          exact (hpres d (hdeps d hd)).symm
  · intro n hn
    rcases (hiff n).mp hn with hn | hn
    · exact hkeys n hn
    · obtain ⟨p, hp, hpk⟩ := List.mem_map.mp hn
      obtain ⟨_, node, f, hnode, _, _, _⟩ := hws p hp
      rw [← hpk]
      exact (lookup_isSome_iff_mem_keys g p.1).mp (by simp [hnode])
  · intro n hn
    rw [hpres n (by rw [hkw n hn]; exact hn)]
    exact hkw n hn
  · intro k hk
    obtain ⟨hkw2, hknws⟩ := (hwmem1 k).mp hk
    obtain ⟨hnone, hkeysg⟩ := hwait k hkw2
    refine ⟨?_, hkeysg⟩
    rw [hgot1, lookup_append_right _ (hrevkeys k hknws)]
    exact hnone

theorem resInv_wave {V : Type} {kw : List (Name × V)} {got got1 : List (Name × V)}
    {res ws : List (Name × V)}
    (hres : ResInv kw got res)
    (hpres : ∀ n, (got.lookup n).isSome → got1.lookup n = got.lookup n)
    (hws : ∀ p ∈ ws, got1.lookup p.1 = some p.2)
    (hwkw : ∀ p ∈ ws, kw.lookup p.1 = none)
    (hiff : ∀ n, (got1.lookup n).isSome ↔
      ((got.lookup n).isSome ∨ n ∈ keysOf ws)) :
    ResInv kw got1 (res ++ ws) := by
  obtain ⟨hr1, hr2, hr3⟩ := hres
  refine ⟨?_, ?_, ?_⟩
  · intro n v hl
    cases hrn : res.lookup n with
    | some w =>
      rw [lookup_append_left ws hrn] at hl
      rw [← Option.some_inj.mp hl]
      rw [hpres n (by simp [hr1 n w hrn])]
      exact hr1 n w hrn
    | none =>
      rw [lookup_append_right ws hrn] at hl
      exact hws (n, v) (lookup_mem hl)
  · intro n hn
    cases hrn : res.lookup n with
    | some w =>
      exact hr2 n (by simp [hrn])
    | none =>
      rw [lookup_append_right ws hrn] at hn
      cases hwn : ws.lookup n with
      | none => rw [hwn] at hn; exact Bool.noConfusion hn
      | some v => exact hwkw (n, v) (lookup_mem hwn)
  · intro n hn
    rcases (hiff n).mp hn with hn | hn
    · rcases hr3 n hn with hk | hk
      · exact Or.inl hk
      · right
        cases hrn : res.lookup n with
        | none => rw [hrn] at hk; exact Bool.noConfusion hk
        | some w => simp [lookup_append_left ws hrn]
    · right
      cases hrn : res.lookup n with
      | some w => simp [lookup_append_left ws hrn]
      | none =>
        rw [lookup_append_right ws hrn]
        exact (lookup_isSome_iff_mem_keys ws n).mpr hn

theorem finalize_run {V : Type} {g : Graph V} {kw : List (Name × V)}
    {st : GenSt V} {res : List (Name × V)}
    (hst : StInv g kw st) (hres : ResInv kw st.got res)
    (hcov : covered g st.got = true) :
    Consistent g kw st.got ∧
    (∀ n, (st.got.lookup n).isSome ↔ n ∈ keysOf g) ∧
    (∀ n, (kw.lookup n).isSome → st.got.lookup n = kw.lookup n) ∧
    (∀ n v, res.lookup n = some v → st.got.lookup n = some v) ∧
    (∀ n, (res.lookup n).isSome ↔ (n ∈ keysOf g ∧ kw.lookup n = none)) := by
  obtain ⟨hcons, hkeys, hkw, _, _⟩ := hst
  obtain ⟨hr1, hr2, hr3⟩ := hres
  have hcovm : ∀ n, (st.got.lookup n).isSome ↔ n ∈ keysOf g :=
    fun n => ⟨hkeys n, fun hn => covered_mem hcov hn⟩
  refine ⟨hcons, hcovm, hkw, hr1, ?_⟩
  intro n
  constructor
  · intro hn
    refine ⟨?_, hr2 n hn⟩
    cases hl : res.lookup n with
    | none => rw [hl] at hn; exact Bool.noConfusion hn
    | some v => exact (hcovm n).mp (by simp [hr1 n v hl])
  · rintro ⟨hn, hkwn⟩
    have := (hcovm n).mpr hn
    rcases hr3 n this with hk | hk
    · rw [hkwn] at hk
      exact Bool.noConfusion hk
    · exact hk

theorem eagerLoop_inv {V : Type} {g : Graph V} {kw : List (Name × V)}
    (hgood : GoodGraph g)
    (hfree : ∀ n ∈ graphFreeVars g, (kw.lookup n).isSome) :
    ∀ (fuel : Nat) (st : GenSt V) (jobs : List (Job V)) (res resF : List (Name × V)),
      StInv g kw st →
      (jobs.map Prod.fst).Nodup →
      (∀ j ∈ jobs, ∃ node, g.lookup j.1 = some node ∧ j.2.1 = node.value ∧
        (∀ d ∈ node.requests, (st.got.lookup d).isSome) ∧
        j.2.2 = envOf st.got node.requests ∧ st.got.lookup j.1 = none ∧
        j.1 ∈ st.waiting) →
      ResInv kw st.got res →
      eagerLoop g fuel (.yield jobs st) res = some (.ok resF) →
      ∃ gotF, Consistent g kw gotF ∧
        (∀ n, (gotF.lookup n).isSome ↔ n ∈ keysOf g) ∧
        (∀ n, (kw.lookup n).isSome → gotF.lookup n = kw.lookup n) ∧
        (∀ n v, resF.lookup n = some v → gotF.lookup n = some v) ∧
        (∀ n, (resF.lookup n).isSome ↔ (n ∈ keysOf g ∧ kw.lookup n = none)) := by
  intro fuel
  induction fuel with
  | zero =>
    intro st jobs res resF _ _ _ _ h
    exact Option.noConfusion h
  | succ fuel ih =>
    intro st jobs res resF hst hjnd hjinv hres h
    replace h : (match runJobs jobs with
      | Except.error e => some (Except.error e)
      | Except.ok waveRes =>
        match genStep g st waveRes with
        | Except.error e => some (Except.error e)
        | Except.ok out2 => eagerLoop g fuel out2 (res ++ waveRes)) =
          some (Except.ok resF) := h
    cases hrj : runJobs jobs with
    | error e =>
      rw [hrj] at h
      simp at h
    | ok ws =>
      replace h : (match genStep g st ws with
        | Except.error e => some (Except.error e)
        | Except.ok out2 => eagerLoop g fuel out2 (res ++ ws)) =
          some (Except.ok resF) := by
        rw [hrj] at h
        exact h
      cases hstep : genStep g st ws with
      | error e =>
        rw [hstep] at h
        simp at h
      | ok out2 =>
        rw [hstep] at h
        replace h : eagerLoop g fuel out2 (res ++ ws) = some (Except.ok resF) := h
        obtain ⟨hwkeys, hwchar⟩ := runJobs_ok jobs ws hrj
        have hwnd : (keysOf ws).Nodup := by
          unfold keysOf
          rw [hwkeys]
          exact hjnd
        have hwave : ∀ p ∈ ws, p.1 ∈ st.waiting ∧
            ∃ node f, g.lookup p.1 = some node ∧ node.value = some f ∧
              (∀ d ∈ node.requests, (st.got.lookup d).isSome) ∧
              p.2 = f (envOf st.got node.requests) := by
          intro p hp
          obtain ⟨j, hj, f, hjk, hjf, hjv⟩ := hwchar p hp
          obtain ⟨node, hnode, hval, hdeps, henv, hnone, hwaitj⟩ := hjinv j hj
          refine ⟨hjk ▸ hwaitj, node, f, hjk ▸ hnode, ?_, hdeps, ?_⟩
          · rw [← hval, hjf]
          · rw [hjv, henv]
        cases habs : absorb st ws with
        | error e =>
          rw [show genStep g st ws = Except.error e by
            unfold genStep
            rw [habs]
            rfl] at hstep
          exact Except.noConfusion hstep
        | ok st1 =>
          have hout2 : out2 = genEmit g st1 := by
            rw [show genStep g st ws = Except.ok (genEmit g st1) by
              unfold genStep
              rw [habs]
              rfl] at hstep
            exact (Except.ok.inj hstep).symm
          obtain ⟨hst1, hpres, hwsval, hiff⟩ := absorb_wave hst hwnd hwave habs
          have hwkw : ∀ p ∈ ws, kw.lookup p.1 = none := by
            intro p hp
            cases hl : kw.lookup p.1 with
            | none => rfl
            | some v =>
              have h1 := hst.2.2.1 p.1 (by simp [hl])
              have h2 := (hst.2.2.2.1 p.1 (hwave p hp).1).1
              rw [h2, hl] at h1
              exact Option.noConfusion h1
          have hres1 : ResInv kw st1.got (res ++ ws) :=
            resInv_wave hres hpres hwsval hwkw hiff
          cases hout : genEmit g st1 with
          | done =>
            rw [hout] at hout2
            subst hout2
            cases fuel with
            | zero => exact Option.noConfusion h
            | succ fuel2 =>
              have hresF : res ++ ws = resF := by
                unfold eagerLoop at h
                simpa using h
              subst hresF
              exact ⟨st1.got, finalize_run hst1 hres1 (genEmit_done hout)⟩
          | yield jobs2 st2 =>
            rw [hout] at hout2
            subst hout2
            obtain ⟨hgot2, hst2, _, hjnd2, hjinv2, hwmono2⟩ := genEmit_yield hgood hst1 hout
            refine ih st2 jobs2 (res ++ ws) resF hst2 hjnd2 ?_ ?_ h
            · intro j hj
              obtain ⟨node, hnode, hval, hdeps, henv, hnone, _, hwait2⟩ := hjinv2 j hj
              rw [← hgot2] at hdeps henv hnone
              exact ⟨node, hnode, hval, hdeps, henv, hnone, hwait2⟩
            · rw [hgot2]
              exact hres1

theorem eagerFun_ok {V : Type} {g : Graph V} (hgood : GoodGraph g)
    {kw : List (Name × V)} {fuel : Nat} {resF : List (Name × V)}
    (h : eagerFun g kw fuel = some (.ok resF)) :
    (∀ n, (kw.lookup n).isSome ↔ n ∈ graphFreeVars g) ∧
    ∃ gotF, Consistent g kw gotF ∧
      (∀ n, (gotF.lookup n).isSome ↔ n ∈ keysOf g) ∧
      (∀ n, (kw.lookup n).isSome → gotF.lookup n = kw.lookup n) ∧
      (∀ n v, resF.lookup n = some v → gotF.lookup n = some v) ∧
      (∀ n, (resF.lookup n).isSome ↔ (n ∈ keysOf g ∧ kw.lookup n = none)) := by
  simp only [eagerFun] at h
  by_cases hass : assertFreeVars (graphFreeVars g) kw = true
  · rw [if_neg (by simp [hass])] at h
    by_cases hmiss : ((graphFreeVars g).filter
        (fun n => (kw.lookup n).isNone)).length ≠ 0
    · rw [if_pos (by simpa using hmiss)] at h
      simp at h
    · rw [if_neg (by simpa using hmiss)] at h
      have hfree : ∀ n ∈ graphFreeVars g, (kw.lookup n).isSome := by
        intro n hn
        by_cases hl : (kw.lookup n).isSome
        · exact hl
        · exfalso
          apply hmiss
          have : n ∈ (graphFreeVars g).filter (fun n => (kw.lookup n).isNone) := by
            refine List.mem_filter.mpr ⟨hn, ?_⟩
            simpa [Option.isNone_iff_eq_none] using
              Option.not_isSome_iff_eq_none.mp hl
          intro hlen
          rw [List.length_eq_zero] at hlen
          rw [hlen] at this
          simp at this
      have hkwiff : ∀ n, (kw.lookup n).isSome ↔ n ∈ graphFreeVars g := by
        intro n
        refine ⟨?_, hfree n⟩
        intro hn
        cases hl : kw.lookup n with
        | none => rw [hl] at hn; exact Bool.noConfusion hn
        | some v =>
          have hm := lookup_mem hl
          have := (List.all_eq_true.mp hass) (n, v) hm
          exact List.mem_of_elem_eq_true this
      refine ⟨hkwiff, ?_⟩
      unfold genStart at h
      rw [if_pos hass] at h
      have hst0 : StInv g kw ⟨kw, []⟩ := stInv_init hgood hass
      cases hemit : genEmit g (⟨kw, []⟩ : GenSt V) with
      | done =>
        rw [hemit] at h
        replace h : eagerLoop g fuel GenOut.done [] = some (Except.ok resF) := h
        have hcov := genEmit_done hemit
        cases fuel with
        | zero => exact Option.noConfusion h
        | succ fuel2 =>
          have hresF : ([] : List (Name × V)) = resF := by
            unfold eagerLoop at h
            simpa using h
          subst hresF
          exact ⟨kw, finalize_run hst0 ⟨by simp, by simp, fun n hn => Or.inl hn⟩ hcov⟩
      | yield jobs st =>
        rw [hemit] at h
        replace h : eagerLoop g fuel (GenOut.yield jobs st) [] =
          some (Except.ok resF) := h
        obtain ⟨hgot, hst, _, hjnd, hjinv, hwmono⟩ := genEmit_yield hgood hst0 hemit
        refine eagerLoop_inv hgood hfree fuel st jobs [] resF hst hjnd ?_ ?_ h
        · intro j hj
          obtain ⟨node, hnode, hval, hdeps, henv, hnone, _, hwait⟩ := hjinv j hj
          rw [← show st.got = kw from hgot] at hdeps henv hnone
          exact ⟨node, hnode, hval, hdeps, henv, hnone, hwait⟩
        · rw [show st.got = kw from hgot]
          exact ⟨by simp, by simp, fun n hn => Or.inl hn⟩
  · rw [Bool.not_eq_true] at hass
    rw [if_pos (by simp [hass])] at h
    simp at h

theorem serialLoop_inv {V : Type} {g : Graph V} {kw : List (Name × V)}
    (hgood : GoodGraph g) :
    ∀ (fuel : Nat) (st : GenSt V) (jobs : List (Job V)) (res resF : List (Name × V)),
      StInv g kw st →
      (jobs.map Prod.fst).Nodup →
      (∀ j ∈ jobs, ∃ node, g.lookup j.1 = some node ∧ j.2.1 = node.value ∧
        (∀ d ∈ node.requests, (st.got.lookup d).isSome) ∧
        j.2.2 = envOf st.got node.requests ∧ st.got.lookup j.1 = none ∧
        j.1 ∈ st.waiting) →
      ResInv kw st.got res →
      serialLoop g fuel st jobs res = some (.ok resF) →
      ∃ gotF, Consistent g kw gotF ∧
        (∀ n, (gotF.lookup n).isSome ↔ n ∈ keysOf g) ∧
        (∀ n, (kw.lookup n).isSome → gotF.lookup n = kw.lookup n) ∧
        (∀ n v, resF.lookup n = some v → gotF.lookup n = some v) ∧
        (∀ n, (resF.lookup n).isSome ↔ (n ∈ keysOf g ∧ kw.lookup n = none)) := by
  intro fuel
  induction fuel with
  | zero =>
    intro st jobs res resF _ _ _ _ h
    exact Option.noConfusion h
  | succ fuel ih =>
    intro st jobs res resF hst hjnd hjinv hres h
    cases jobs with
    | nil =>
      replace h : (some (Except.error Err.indexError) :
        Option (Except Err (List (Name × V)))) = some (Except.ok resF) := h
      simp at h
    | cons j rest =>
      replace h : (match j.2.1 with
        | none => some (Except.error Err.typeError)
        | some f =>
          match genStep g st [(j.1, f j.2.2)] with
          | Except.error e => some (Except.error e)
          | Except.ok GenOut.done => some (Except.ok (res ++ [(j.1, f j.2.2)]))
          | Except.ok (GenOut.yield newJobs st2) =>
            serialLoop g fuel st2 (newJobs.reverse ++ rest)
              (res ++ [(j.1, f j.2.2)])) = some (Except.ok resF) := h
      obtain ⟨node, hnode, hval, hdeps, henv, hnone, hwaitj⟩ :=
        hjinv j (List.mem_cons_self j rest)
      cases hjv : j.2.1 with
      | none =>
        rw [hjv] at h
        simp at h
      | some f =>
        rw [hjv] at h
        replace h : (match genStep g st [(j.1, f j.2.2)] with
          | Except.error e => some (Except.error e)
          | Except.ok GenOut.done => some (Except.ok (res ++ [(j.1, f j.2.2)]))
          | Except.ok (GenOut.yield newJobs st2) =>
            serialLoop g fuel st2 (newJobs.reverse ++ rest)
              (res ++ [(j.1, f j.2.2)])) = some (Except.ok resF) := h
        have hvalf : node.value = some f := by rw [← hval, hjv]
        set v := f j.2.2 with hv
        have hjnd2h : (j.1 :: rest.map Prod.fst).Nodup := by simpa using hjnd
        have hrestnd : (rest.map Prod.fst).Nodup := (List.nodup_cons.mp hjnd2h).2
        have hjheadnotin : j.1 ∉ rest.map Prod.fst := (List.nodup_cons.mp hjnd2h).1
        cases habs : absorb st [(j.1, v)] with
        | error e =>
          rw [show genStep g st [(j.1, v)] = Except.error e by
            unfold genStep
            rw [habs]
            rfl] at h
          simp at h
        | ok st1 =>
          rw [show genStep g st [(j.1, v)] = Except.ok (genEmit g st1) by
            unfold genStep
            rw [habs]
            rfl] at h
          have hwave : ∀ p ∈ [(j.1, v)], p.1 ∈ st.waiting ∧
              ∃ node f, g.lookup p.1 = some node ∧ node.value = some f ∧
                (∀ d ∈ node.requests, (st.got.lookup d).isSome) ∧
                p.2 = f (envOf st.got node.requests) := by
            intro p hp
            rw [List.mem_singleton.mp hp]
            exact ⟨hwaitj, node, f, hnode, hvalf, hdeps, by rw [hv, henv]⟩
          obtain ⟨hst1, hpres, hwsval, hiff⟩ :=
            absorb_wave hst (by simp [keysOf]) hwave habs
          have hwkw : ∀ p ∈ [(j.1, v)], kw.lookup p.1 = none := by
            intro p hp
            rw [List.mem_singleton.mp hp]
            cases hl : kw.lookup j.1 with
            | none => rfl
            | some w =>
              have h1 := hst.2.2.1 j.1 (by simp [hl])
              rw [hnone, hl] at h1
              exact Option.noConfusion h1
          have hres1 : ResInv kw st1.got (res ++ [(j.1, v)]) :=
            resInv_wave hres hpres hwsval hwkw hiff
          obtain ⟨habs_got, _, habs_wchar, _⟩ := absorb_ok [(j.1, v)] st st1 habs hst.2.2.2.2
          cases hout : genEmit g st1 with
          | done =>
            rw [hout] at h
            have hresF : res ++ [(j.1, v)] = resF := by simpa using h
            subst hresF
            exact ⟨st1.got, finalize_run hst1 hres1 (genEmit_done hout)⟩
          | yield jobs2 st2 =>
            rw [hout] at h
            obtain ⟨hgot2, hst2, _, hjnd2, hjinv2, hwmono2⟩ :=
              genEmit_yield hgood hst1 hout
            have hrestlift : ∀ j2 ∈ rest, ∃ node, g.lookup j2.1 = some node ∧
                j2.2.1 = node.value ∧
                (∀ d ∈ node.requests, (st2.got.lookup d).isSome) ∧
                j2.2.2 = envOf st2.got node.requests ∧
                st2.got.lookup j2.1 = none ∧ j2.1 ∈ st2.waiting := by
              intro j2 hj2
              obtain ⟨node2, hnode2, hval2, hdeps2, henv2, hnone2, hwait2⟩ :=
                hjinv j2 (List.mem_cons_of_mem _ hj2)
              have hj2ne : j2.1 ∉ keysOf ([(j.1, v)] : List (Name × V)) := by
                intro hm
                apply hjheadnotin
                rw [show j.1 = j2.1 from (by simpa [keysOf] using hm : j2.1 = j.1).symm]
                exact List.mem_map.mpr ⟨j2, hj2, rfl⟩
              have hnone1 : st1.got.lookup j2.1 = none := by
                cases hl : st1.got.lookup j2.1 with
                | none => rfl
                | some w =>
                  rcases (hiff j2.1).mp (by simp [hl]) with hh | hh
                  · rw [hnone2] at hh
                    exact Bool.noConfusion hh
                  · exact absurd hh hj2ne
              refine ⟨node2, hnode2, hval2, ?_, ?_, ?_, ?_⟩
              · intro d hd
                rw [hgot2, hpres d (hdeps2 d hd)]
                exact hdeps2 d hd
              · rw [henv2, hgot2]
                apply envOf_congr
                intro d hd
                exact (hpres d (hdeps2 d hd)).symm
              · rw [hgot2]
                exact hnone1
              · exact hwmono2 j2.1 ((habs_wchar j2.1).mpr ⟨hwait2, hj2ne⟩)
            refine ih st2 (jobs2.reverse ++ rest) (res ++ [(j.1, v)]) resF hst2 ?_ ?_ ?_ h
            · rw [List.map_append]
              refine List.Nodup.append ?_ hrestnd ?_
              · rw [show (jobs2.reverse.map Prod.fst : List Name) =
                  (jobs2.map Prod.fst).reverse from (List.map_reverse _ _)]
                exact List.nodup_reverse.mpr hjnd2
              · intro a ha hb
                obtain ⟨j2, hj2, hj2a⟩ := List.mem_map.mp ha
                rw [List.mem_reverse] at hj2
                obtain ⟨_, _, _, _, _, _, hnw1, _⟩ := hjinv2 j2 hj2
                apply hnw1
                obtain ⟨j3, hj3, hj3a⟩ := List.mem_map.mp hb
                obtain ⟨_, _, _, _, _, hnone3, hwait3⟩ :=
                  hjinv j3 (List.mem_cons_of_mem _ hj3)
                have hj3ne : j3.1 ∉ keysOf ([(j.1, v)] : List (Name × V)) := by
                  intro hm
                  apply hjheadnotin
                  rw [show j.1 = j3.1 from (by simpa [keysOf] using hm : j3.1 = j.1).symm]
                  exact List.mem_map.mpr ⟨j3, hj3, rfl⟩
                have : j3.1 ∈ st1.waiting := (habs_wchar j3.1).mpr ⟨hwait3, hj3ne⟩
                rw [hj2a, ← hj3a]
                exact this
            · intro j2 hj2
              rcases List.mem_append.mp hj2 with hj2 | hj2
              · rw [List.mem_reverse] at hj2
                obtain ⟨node2, hnode2, hval2, hdeps2, henv2, hnone2, _, hwait2⟩ :=
                  hjinv2 j2 hj2
                rw [← hgot2] at hdeps2 henv2 hnone2
                exact ⟨node2, hnode2, hval2, hdeps2, henv2, hnone2, hwait2⟩
              · exact hrestlift j2 hj2
            · rw [hgot2]
              exact hres1

theorem serialRun_ok {V : Type} {g : Graph V} (hgood : GoodGraph g)
    {kw : List (Name × V)} {fuel : Nat} {resF : List (Name × V)}
    (h : serialRun g kw fuel = some (.ok resF)) :
    ∃ gotF, Consistent g kw gotF ∧
      (∀ n, (gotF.lookup n).isSome ↔ n ∈ keysOf g) ∧
      (∀ n, (kw.lookup n).isSome → gotF.lookup n = kw.lookup n) ∧
      (∀ n v, resF.lookup n = some v → gotF.lookup n = some v) ∧
      (∀ n, (resF.lookup n).isSome ↔ (n ∈ keysOf g ∧ kw.lookup n = none)) := by
  unfold serialRun genStart at h
  by_cases hass : assertFreeVars (graphFreeVars g) kw = true
  · rw [if_pos hass] at h
    have hst0 : StInv g kw ⟨kw, []⟩ := stInv_init hgood hass
    cases hemit : genEmit g (⟨kw, []⟩ : GenSt V) with
    | done =>
      rw [hemit] at h
      have hresF : ([] : List (Name × V)) = resF := by simpa using h
      subst hresF
      exact ⟨kw, finalize_run hst0 ⟨by simp, by simp, fun n hn => Or.inl hn⟩
        (genEmit_done hemit)⟩
    | yield jobs st =>
      rw [hemit] at h
      replace h : serialLoop g fuel st jobs.reverse [] = some (Except.ok resF) := h
      obtain ⟨hgot, hst, _, hjnd, hjinv, _⟩ := genEmit_yield hgood hst0 hemit
      refine serialLoop_inv hgood fuel st jobs.reverse [] resF hst ?_ ?_ ?_ h
      · rw [show (jobs.reverse.map Prod.fst : List Name) =
          (jobs.map Prod.fst).reverse from (List.map_reverse _ _)]
        exact List.nodup_reverse.mpr hjnd
      · intro j hj
        rw [List.mem_reverse] at hj
        obtain ⟨node, hnode, hval, hdeps, henv, hnone, _, hwait⟩ := hjinv j hj
        rw [← show st.got = kw from hgot] at hdeps henv hnone
        exact ⟨node, hnode, hval, hdeps, henv, hnone, hwait⟩
      · rw [show st.got = kw from hgot]
        exact ⟨by simp, by simp, fun n hn => Or.inl hn⟩
  · rw [if_neg hass] at h
    simp at h

theorem lookup_filterMap_restrict {V : Type} (got : List (Name × V)) :
    ∀ (args : List Name) (n : Name),
      (args.filterMap (fun a => (got.lookup a).map (fun v => (a, v)))).lookup n =
        if n ∈ args then got.lookup n else none := by
  intro args
  induction args with
  | nil =>
    intro n
    simp
  | cons a rest ih =>
    intro n
    rw [List.filterMap_cons]
    cases hga : got.lookup a with
    | none =>
      simp only [hga, Option.map_none']
      rw [ih n]
      by_cases hna : n = a
      · subst hna
        by_cases hnr : n ∈ rest
        · simp [hnr]
        · simp [hnr, hga]
      · simp [hna]
    | some v =>
      simp only [hga, Option.map_some']
      by_cases hna : n = a
      · subst hna
        rw [lookup_cons_self]
        simp [hga]
      · rw [lookup_cons_ne _ _ hna, ih n]
        simp [hna]

theorem lazyWork_ok {V : Type} {g : Graph V} {kw : List (Name × V)}
    (fv args : List Name) :
    ∀ (fuel : Nat) (order : List Name) (got gotF : List (Name × V)),
      Consistent g kw got →
      (∀ n, (kw.lookup n).isSome → got.lookup n = kw.lookup n) →
      lazyWork g fv args fuel order got = some (.ok gotF) →
      Consistent g kw gotF ∧
      (∀ n, (kw.lookup n).isSome → gotF.lookup n = kw.lookup n) ∧
      (∀ a ∈ args, (gotF.lookup a).isSome) := by
  intro fuel
  induction fuel with
  | zero =>
    intro order got gotF _ _ h
    exact Option.noConfusion h
  | succ fuel ih =>
    intro order got gotF hcons hkw h
    cases order with
    | nil =>
      simp only [lazyWork] at h
      by_cases hall : (args.all fun a => (got.lookup a).isSome) = true
      · rw [if_pos hall] at h
        simp only [List.isEmpty_nil, if_pos] at h
        have : got = gotF := by simpa using h
        subst this
        exact ⟨hcons, hkw, fun a ha => List.all_eq_true.mp hall a ha⟩
      · rw [if_neg hall] at h
        simp at h
    | cons item rest =>
      simp only [lazyWork] at h
      by_cases hall : (args.all fun a => (got.lookup a).isSome) = true
      · rw [if_pos hall] at h
        simp at h
      · rw [if_neg hall] at h
        by_cases hin : (got.lookup item).isSome = true
        · rw [if_pos hin] at h
          exact ih rest got gotF hcons hkw h
        · rw [if_neg hin] at h
          cases hnode : g.lookup item with
          | none =>
            rw [hnode] at h
            simp at h
          | some node =>
            rw [hnode] at h
            simp only at h
            by_cases hnp : (node.requests.filter fun r => (got.lookup r).isNone).length > 0
            · rw [if_pos hnp] at h
              by_cases hfree :
                  ((node.requests.filter fun r => (got.lookup r).isNone).any
                    fun r => fv.contains r) = true
              · rw [if_pos hfree] at h
                simp at h
              · rw [if_neg hfree] at h
                exact ih _ got gotF hcons hkw h
            · rw [if_neg hnp] at h
              cases hval : node.value with
              | none =>
                rw [hval] at h
                simp at h
              | some f =>
                rw [hval] at h
                have hitemnone : got.lookup item = none :=
                  Option.not_isSome_iff_eq_none.mp (by simpa using hin)
                have hdeps : ∀ d ∈ node.requests, (got.lookup d).isSome := by
                  intro d hd
                  by_cases hds : (got.lookup d).isSome = true
                  · exact hds
                  · exfalso
                    apply hnp
                    have : d ∈ node.requests.filter
                        (fun r => (got.lookup r).isNone) := by
                      refine List.mem_filter.mpr ⟨hd, ?_⟩
                      simpa [Option.isNone_iff_eq_none] using
                        Option.not_isSome_iff_eq_none.mp hds
                    cases hfl : (node.requests.filter
                        (fun r => (got.lookup r).isNone)) with
                    | nil => rw [hfl] at this; simp at this
                    | cons x xs => simp [hfl]
                have hpres2 : ∀ n, (got.lookup n).isSome →
                    ((item, f (envOf got node.requests)) :: got).lookup n =
                      got.lookup n :=
                  fun n hn => lookup_cons_fresh hitemnone hn
                refine ih rest _ gotF ?_ ?_ h
                · intro n v hl
                  by_cases hni : n = item
                  · subst hni
                    rw [lookup_cons_self] at hl
                    refine ⟨node, hnode, ?_⟩
                    rw [hval]
                    refine ⟨?_, ?_⟩
                    · intro d hd
                      rw [hpres2 d (hdeps d hd)]
                      exact hdeps d hd
                    · rw [← Option.some_inj.mp hl]
                      congr 1
                      apply envOf_congr
                      intro d hd
                      exact (hpres2 d (hdeps d hd)).symm
                  · rw [lookup_cons_ne _ got hni] at hl
                    obtain ⟨node2, hnode2, hrest2⟩ := hcons n v hl
                    refine ⟨node2, hnode2, ?_⟩
                    cases hval2 : node2.value with
                    | none =>
                      rw [hval2] at hrest2
                      exact hrest2
                    | some f2 =>
                      rw [hval2] at hrest2
                      obtain ⟨hdeps2, hv2⟩ := hrest2
                      refine ⟨?_, ?_⟩
                      · intro d hd
                        rw [hpres2 d (hdeps2 d hd)]
                        exact hdeps2 d hd
                      · rw [hv2]
                        congr 1
                        apply envOf_congr
                        intro d hd
                        exact (hpres2 d (hdeps2 d hd)).symm
                · intro n hn
                  rw [hpres2 n (by rw [hkw n hn]; exact hn)]
                  exact hkw n hn

theorem lazyFun_ok {V : Type} {g : Graph V} (hgood : GoodGraph g)
    {args : List Name} {kw : List (Name × V)} {fuel : Nat}
    {resF : List (Name × V)}
    (h : lazyFun g args kw fuel = some (.ok resF)) :
    ∃ gotF, Consistent g kw gotF ∧
      (∀ n, (kw.lookup n).isSome → gotF.lookup n = kw.lookup n) ∧
      (∀ a ∈ args, (gotF.lookup a).isSome) ∧
      (∀ n, resF.lookup n = if n ∈ args then gotF.lookup n else none) := by
  simp only [lazyFun] at h
  by_cases hass : assertFreeVars (graphFreeVars g) kw = true
  · rw [if_neg (by simp [hass])] at h
    cases hw : lazyWork g (graphFreeVars g) args fuel args.reverse kw with
    | none =>
      rw [hw] at h
      exact Option.noConfusion h
    | some r =>
      rw [hw] at h
      cases r with
      | error e =>
        simp at h
      | ok gotF =>
        have hresF : args.filterMap
            (fun a => (gotF.lookup a).map (fun v => (a, v))) = resF := by
          simpa using h
        obtain ⟨hc, hk, ha⟩ := lazyWork_ok (graphFreeVars g) args fuel
          args.reverse kw gotF (stInv_init hgood hass).1
          (fun n _ => rfl) hw
        refine ⟨gotF, hc, hk, ha, ?_⟩
        intro n
        rw [← hresF]
        exact lookup_filterMap_restrict gotF args n
  · rw [Bool.not_eq_true] at hass
    rw [if_pos (by simp [hass])] at h
    simp at h

/-- Claim C2, amended: for every well formed graph and every binding the
eager compiled function accepts and completes on, the returned mapping
holds exactly the producer node names - the graph names that are not
free variables; the free variables are kept only in the driver's
internal bindings and are not part of the result. -/
theorem eager_result_is_producer_nodes {V : Type} (g : Graph V)
    (kw : List (Name × V)) (fuel : Nat) (resF : List (Name × V))
    (hgood : GoodGraph g) (h : eagerFun g kw fuel = some (.ok resF)) :
    ∀ n, (resF.lookup n).isSome ↔ (n ∈ keysOf g ∧ n ∉ graphFreeVars g) := by
  obtain ⟨hkwiff, gotF, _, _, _, _, hres⟩ := eagerFun_ok hgood h
  intro n
  rw [hres n]
  constructor
  · rintro ⟨hk, hkw⟩
    refine ⟨hk, ?_⟩
    intro hfree
    have := (hkwiff n).mpr hfree
    rw [hkw] at this
    exact Bool.noConfusion this
  · rintro ⟨hk, hnf⟩
    refine ⟨hk, ?_⟩
    cases hl : kw.lookup n with
    | none => rfl
    | some v =>
      exact absurd ((hkwiff n).mp (by simp [hl])) hnf

/-- Claim C2, witness for the amended theorem: the demo run, checked at
the producer node var. -/
theorem eager_result_is_producer_nodes_witness :
    (demoEagerRes.lookup "var").isSome ↔
      ("var" ∈ keysOf demoGraph ∧ "var" ∉ graphFreeVars demoGraph) :=
  eager_result_is_producer_nodes demoGraph demoKw 10 demoEagerRes
    (by unfold GoodGraph; decide) rfl "var"

/-- Claim C6, amended: both compiled functions reject an extra unknown
key up front; the eager compiled function rejects an omitted free
variable with an error naming every missing variable; the lazy compiled
function, by contrast, fails only when an omitted free variable is
actually needed for the requested targets - with a bare assertion that
names nothing - and otherwise returns a result despite the omission. -/
theorem input_validation_behaviour :
    (∀ (V : Type) (g : Graph V) (kw : List (Name × V)) (fuel : Nat)
        (args : List Name),
      assertFreeVars (graphFreeVars g) kw = false →
        eagerFun g kw fuel = some (.error .unknownInput) ∧
        lazyFun g args kw fuel = some (.error .unknownInput)) ∧
    (∀ (V : Type) (g : Graph V) (kw : List (Name × V)) (fuel : Nat),
      assertFreeVars (graphFreeVars g) kw = true →
      (graphFreeVars g).filter (fun n => (kw.lookup n).isNone) ≠ [] →
      eagerFun g kw fuel = some (.error (.missingInput
        ((graphFreeVars g).filter (fun n => (kw.lookup n).isNone))))) ∧
    lazyFun demoGraph ["n"] [] 20 = some (.error .lazyMissingFree) ∧
    lazyFun twoFreeGraph ["a"] [("x", xsVal)] 20 = some (.ok [("a", .num ⟨0, 1⟩)]) := by
  refine ⟨?_, ?_, rfl, rfl⟩
  · intro V g kw fuel args hass
    constructor
    · simp only [eagerFun]
      rw [if_pos (by simp [hass])]
    · simp only [lazyFun]
      rw [if_pos (by simp [hass])]
  · intro V g kw fuel hass hne
    simp only [eagerFun]
    rw [if_neg (by simp [hass])]
    rw [if_pos (by simpa [List.length_eq_zero] using
      (fun hl => hne (List.length_eq_zero.mp hl)))]

/-- Claim C6, witness for the amended theorem: a concrete unknown-key
call on both compilers and a concrete missing-variable call on the eager
compiler. -/
theorem input_validation_behaviour_witness :
    eagerFun demoGraph [("bogus", xsVal)] 5 = some (.error .unknownInput) ∧
    lazyFun demoGraph ["n"] [("bogus", xsVal)] 5 = some (.error .unknownInput) ∧
    eagerFun demoGraph ([] : List (Name × Val)) 5 =
      some (.error (.missingInput ["xs"])) := by
  refine ⟨(input_validation_behaviour.1 Val demoGraph [("bogus", xsVal)] 5
      ["n"] rfl).1,
    (input_validation_behaviour.1 Val demoGraph [("bogus", xsVal)] 5
      ["n"] rfl).2, ?_⟩
  have h := input_validation_behaviour.2.1 Val demoGraph
    ([] : List (Name × Val)) 5 rfl (by decide)
  simpa using h

/-- Claim C3, amended: for a well formed acyclic graph and a binding on
which all three strategies complete, the eager compiler and the
manually stepped staged run return identical mappings, and the lazy
compiler requested for all the graph names returns those same values on
producer nodes and additionally maps each free variable to its supplied
binding. -/
theorem strategies_agree_on_producers {V : Type} (g : Graph V)
    (rk : Name → Nat) (kw : List (Name × V)) (args : List Name)
    (fuelE fuelS fuelL : Nat) (resE resS resL : List (Name × V))
    (hgood : GoodGraph g) (hrk : RankFn g rk)
    (hargs : ∀ n, n ∈ args ↔ n ∈ keysOf g)
    (hE : eagerFun g kw fuelE = some (.ok resE))
    (hS : serialRun g kw fuelS = some (.ok resS))
    (hL : lazyFun g args kw fuelL = some (.ok resL)) :
    (∀ n, resE.lookup n = resS.lookup n) ∧
    (∀ n, n ∉ graphFreeVars g → resL.lookup n = resE.lookup n) ∧
    (∀ n, n ∈ graphFreeVars g → resL.lookup n = kw.lookup n) := by
  obtain ⟨hkwiff, gotE, hcE, hkeyE, hkwE, hrE, hiffE⟩ := eagerFun_ok hgood hE
  obtain ⟨gotS, hcS, hkeyS, hkwS, hrS, hiffS⟩ := serialRun_ok hgood hS
  obtain ⟨gotL, hcL, hkwL, haL, hresL⟩ := lazyFun_ok hgood hL
  refine ⟨?_, ?_, ?_⟩
  · intro n
    cases he : resE.lookup n with
    | some v =>
      have hconj := (hiffE n).mp (by simp [he])
      have hs : (resS.lookup n).isSome := (hiffS n).mpr hconj
      cases hs2 : resS.lookup n with
      | none => rw [hs2] at hs; exact Bool.noConfusion hs
      | some w =>
        rw [consistent_agree hrk hcE hcS n v w (hrE n v he) (hrS n w hs2)]
    | none =>
      cases hs2 : resS.lookup n with
      | none => rfl
      | some w =>
        have hconj := (hiffS n).mp (by simp [hs2])
        have := (hiffE n).mpr hconj
        rw [he] at this
        exact Bool.noConfusion this
  · intro n hnf
    by_cases hk : n ∈ keysOf g
    · rw [hresL n, if_pos ((hargs n).mpr hk)]
      have hkwnone : kw.lookup n = none := by
        cases hl : kw.lookup n with
        | none => rfl
        | some v => exact absurd ((hkwiff n).mp (by simp [hl])) hnf
      have he : (resE.lookup n).isSome := (hiffE n).mpr ⟨hk, hkwnone⟩
      cases he2 : resE.lookup n with
      | none => rw [he2] at he; exact Bool.noConfusion he
      | some v =>
        have hl : (gotL.lookup n).isSome := haL n ((hargs n).mpr hk)
        cases hl2 : gotL.lookup n with
        | none => rw [hl2] at hl; exact Bool.noConfusion hl
        | some w =>
          rw [consistent_agree hrk hcL hcE n w v hl2 (hrE n v he2)]
    · rw [hresL n, if_neg (fun hm => hk ((hargs n).mp hm))]
      cases he2 : resE.lookup n with
      | none => rfl
      | some v =>
        exact absurd ((hiffE n).mp (by simp [he2])).1 hk
  · intro n hnf
    have hkwn : (kw.lookup n).isSome := (hkwiff n).mpr hnf
    have hk : n ∈ keysOf g := by
      obtain ⟨node, hnode, _⟩ := (mem_freeVars_iff hgood n).mp hnf
      exact (lookup_isSome_iff_mem_keys g n).mp (by simp [hnode])
    rw [hresL n, if_pos ((hargs n).mpr hk)]
    exact hkwL n hkwn

/-- Claim C3, witness for the amended theorem: the demo graph runs,
checked at the producer nodes m and m2 and the free variable xs. -/
theorem strategies_agree_on_producers_witness :
    demoEagerRes.lookup "m" = demoSerialRes.lookup "m" ∧
    demoLazyAllRes.lookup "m2" = demoEagerRes.lookup "m2" ∧
    demoLazyAllRes.lookup "xs" = demoKw.lookup "xs" := by
  have h := strategies_agree_on_producers demoGraph demoRank demoKw
    demoAllNames 10 20 40 demoEagerRes demoSerialRes demoLazyAllRes
    (by unfold GoodGraph; decide) (by unfold RankFn; decide)
    (by
      intro n
      have hkeys : keysOf demoGraph = ["n", "xs", "m", "m2", "var"] := rfl
      rw [hkeys]
      simp only [demoAllNames, List.mem_cons, List.not_mem_nil]
      tauto)
    rfl rfl rfl
  exact ⟨h.1 "m", h.2.1 "m2" (by decide), h.2.2 "xs" (by decide)⟩

/-! Claim C1: correctness of the topological layering on well formed
closed acyclic graphs.  First the sorting and grouping toolkit. -/

theorem insertSorted_perm (x : Nat × Name) :
    ∀ l, (insertSorted x l).Perm (x :: l) := by
  intro l
  induction l with
  | nil => exact List.Perm.refl _
  | cons y ys ih =>
    unfold insertSorted
    by_cases h : pairLe x y = true
    · rw [if_pos h]
    · rw [if_neg h]
      exact (ih.cons y).trans (List.Perm.swap x y ys)

theorem sortPairs_perm : ∀ l : List (Nat × Name), (sortPairs l).Perm l := by
  intro l
  induction l with
  | nil => exact List.Perm.refl _
  | cons p rest ih =>
    show (insertSorted p (sortPairs rest)).Perm (p :: rest)
    exact (insertSorted_perm p (sortPairs rest)).trans (ih.cons p)

theorem pairLe_level {x y : Nat × Name} (h : pairLe x y = true) : x.1 ≤ y.1 := by
  unfold pairLe at h
  rcases Bool.or_eq_true _ _ ▸ h with h1 | h1
  · exact Nat.le_of_lt (of_decide_eq_true h1)
  · simp only [Bool.and_eq_true, beq_iff_eq] at h1
    exact Nat.le_of_eq h1.1

theorem not_pairLe_level {x y : Nat × Name} (h : pairLe x y = false) :
    y.1 ≤ x.1 := by
  unfold pairLe at h
  have h1 := Bool.or_eq_false_iff.mp h
  have : ¬ x.1 < y.1 := by
    intro hlt
    have := h1.1
    rw [decide_eq_true hlt] at this
    exact Bool.noConfusion this
  omega

theorem insertSorted_sorted (x : Nat × Name) :
    ∀ l, List.Pairwise (fun a c : Nat × Name => a.1 ≤ c.1) l →
    List.Pairwise (fun a c : Nat × Name => a.1 ≤ c.1) (insertSorted x l) := by
  intro l
  induction l with
  | nil =>
    intro _
    exact List.pairwise_singleton _ x
  | cons y ys ih =>
    intro h
    obtain ⟨hy, hys⟩ := List.pairwise_cons.mp h
    unfold insertSorted
    by_cases hle : pairLe x y = true
    · rw [if_pos hle]
      refine List.pairwise_cons.mpr ⟨?_, h⟩
      intro z hz
      rcases List.mem_cons.mp hz with hz | hz
      · exact hz ▸ pairLe_level hle
      · exact le_trans (pairLe_level hle) (hy z hz)
    · rw [if_neg hle]
      refine List.pairwise_cons.mpr ⟨?_, ih hys⟩
      intro z hz
      rcases List.mem_cons.mp ((insertSorted_perm x ys).mem_iff.mp hz) with hz2 | hz2
      · exact hz2 ▸ not_pairLe_level (Bool.not_eq_true _ ▸ hle)
      · exact hy z hz2

theorem sortPairs_sorted (l : List (Nat × Name)) :
    List.Pairwise (fun a c : Nat × Name => a.1 ≤ c.1) (sortPairs l) := by
  induction l with
  | nil => exact List.Pairwise.nil
  | cons p rest ih => exact insertSorted_sorted p (sortPairs rest) ih

theorem spanLevel_snd_length (l : Nat) :
    ∀ ps : List (Nat × Name), (spanLevel l ps).2.length ≤ ps.length := by
  intro ps
  induction ps with
  | nil => simp [spanLevel]
  | cons p rest ih =>
    by_cases h : p.1 = l
    · simpa [spanLevel, h] using Nat.le_succ_of_le ih
    · simp [spanLevel, h]

theorem spanLevel_cons_pos {l : Nat} {p : Nat × Name} (rest : List (Nat × Name))
    (h : p.1 = l) : spanLevel l (p :: rest) =
      (p.2 :: (spanLevel l rest).1, (spanLevel l rest).2) := by
  simp [spanLevel, h]

theorem spanLevel_cons_neg {l : Nat} {p : Nat × Name} (rest : List (Nat × Name))
    (h : ¬ p.1 = l) : spanLevel l (p :: rest) = ([], p :: rest) := by
  simp [spanLevel, h]

theorem spanLevel_decomp (l : Nat) :
    ∀ ps : List (Nat × Name), ∃ pre,
      ps = pre ++ (spanLevel l ps).2 ∧
      (∀ q ∈ pre, q.1 = l) ∧
      (spanLevel l ps).1 = pre.map Prod.snd ∧
      (∀ q rest2, (spanLevel l ps).2 = q :: rest2 → q.1 ≠ l) := by
  intro ps
  induction ps with
  | nil =>
    exact ⟨[], by simp [spanLevel], by simp, by simp [spanLevel], by simp [spanLevel]⟩
  | cons p rest ih =>
    by_cases h : p.1 = l
    · obtain ⟨pre, h1, h2, h3, h4⟩ := ih
      rw [spanLevel_cons_pos rest h]
      refine ⟨p :: pre, ?_, ?_, ?_, ?_⟩
      · simpa using h1
      · intro q hq
        rcases List.mem_cons.mp hq with hq | hq
        · exact hq ▸ h
        · exact h2 q hq
      · simpa using h3
      · exact h4
    · rw [spanLevel_cons_neg rest h]
      refine ⟨[], by simp, by simp, by simp, ?_⟩
      intro q rest2 hq
      rw [← (List.cons.injEq ..).mp hq |>.1]
      exact h

theorem groupByLevelAux_char :
    ∀ (fuel : Nat) (ps : List (Nat × Name)) (b : Nat),
      ps.length ≤ fuel →
      List.Pairwise (fun a c : Nat × Name => a.1 ≤ c.1) ps →
      (∀ p ∈ ps, b ≤ p.1) →
      (∀ p ∈ ps, ∀ j, b ≤ j → j < p.1 → ∃ q ∈ ps, q.1 = j) →
      ((groupByLevelAux fuel ps).flatten = ps.map Prod.snd) ∧
      (∀ k n, n ∈ (groupByLevelAux fuel ps).getD k [] ↔ (b + k, n) ∈ ps) := by
  intro fuel
  induction fuel with
  | zero =>
    intro ps b hlen _ _ _
    rw [Nat.le_zero, List.length_eq_zero] at hlen
    subst hlen
    refine ⟨rfl, ?_⟩
    intro k n
    simp [groupByLevelAux]
  | succ fuel ih =>
    intro ps b hlen hsort hlb hdc
    cases ps with
    | nil =>
      refine ⟨rfl, ?_⟩
      intro k n
      simp [groupByLevelAux]
    | cons p rest =>
      have hsortrest := (List.pairwise_cons.mp hsort).2
      have hheadle := (List.pairwise_cons.mp hsort).1
      have hb : p.1 = b := by
        by_contra hne
        have hlt : b < p.1 := Nat.lt_of_le_of_ne (hlb p (by simp)) (Ne.symm hne)
        obtain ⟨q, hq, hqb⟩ := hdc p (by simp) b (Nat.le_refl b) hlt
        rcases List.mem_cons.mp hq with hq | hq
        · exact hne (hq ▸ hqb)
        · have := hheadle q hq
          omega
      obtain ⟨pre, hdec, hprelvl, hrun, hheadne⟩ := spanLevel_decomp p.1 rest
      have hgrp : groupByLevelAux (fuel + 1) (p :: rest) =
          (p.2 :: (spanLevel p.1 rest).1) ::
            groupByLevelAux fuel (spanLevel p.1 rest).2 := rfl
      have hr2sub : List.Sublist (spanLevel p.1 rest).2 (p :: rest) := by
        refine List.Sublist.trans ?_ (List.sublist_cons_self p rest)
        conv_rhs => rw [hdec]
        exact (List.suffix_append pre (spanLevel p.1 rest).2).sublist
      have hr2sort : List.Pairwise (fun a c : Nat × Name => a.1 ≤ c.1)
          (spanLevel p.1 rest).2 := hsort.sublist hr2sub
      have hr2lb : ∀ q ∈ (spanLevel p.1 rest).2, b + 1 ≤ q.1 := by
        cases hsp : (spanLevel p.1 rest).2 with
        | nil => simp
        | cons h0 tail =>
          have hh0ne : h0.1 ≠ p.1 := hheadne h0 tail hsp
          have hh0mem : h0 ∈ p :: rest := hr2sub.mem (by rw [hsp]; simp)
          have hh0ge : b ≤ h0.1 := hlb h0 hh0mem
          have hh0gt : b + 1 ≤ h0.1 := by
            rcases Nat.lt_or_ge b h0.1 with hl | hl
            · omega
            · exfalso
              exact hh0ne (by omega)
          intro q hq
          have hsort2 : List.Pairwise (fun a c : Nat × Name => a.1 ≤ c.1)
              (h0 :: tail) := hsp ▸ hr2sort
          rcases List.mem_cons.mp hq with hq2 | hq2
          · exact hq2 ▸ hh0gt
          · have := (List.pairwise_cons.mp hsort2).1 q hq2
            omega
      have hr2dc : ∀ q ∈ (spanLevel p.1 rest).2, ∀ j, b + 1 ≤ j → j < q.1 →
          ∃ q2 ∈ (spanLevel p.1 rest).2, q2.1 = j := by
        intro q hq j hj hjq
        obtain ⟨q2, hq2, hq2j⟩ := hdc q (hr2sub.mem hq) j (by omega) hjq
        rcases List.mem_cons.mp hq2 with hq2m | hq2m
        · exfalso
          rw [hq2m] at hq2j
          omega
        · rw [hdec] at hq2m
          rcases List.mem_append.mp hq2m with hq2m | hq2m
          · exfalso
            have := hprelvl q2 hq2m
            omega
          · exact ⟨q2, hq2m, hq2j⟩
      obtain ⟨ihjoin, ihchar⟩ := ih (spanLevel p.1 rest).2 (b + 1)
        (by
          have h1 := spanLevel_snd_length p.1 rest
          have h2 : (p :: rest).length ≤ fuel + 1 := hlen
          simp only [List.length_cons] at h2
          omega)
        hr2sort hr2lb hr2dc
      constructor
      · rw [hgrp, List.flatten_cons, ihjoin, hrun]
        conv_rhs => rw [hdec]
        simp
      · intro k n
        cases k with
        | zero =>
          rw [hgrp, List.getD_cons_zero]
          constructor
          · intro hn
            rcases List.mem_cons.mp hn with hn | hn
            · refine List.mem_cons.mpr (Or.inl ?_)
              rw [hn, Nat.add_zero, ← hb]
            · rw [hrun] at hn
              obtain ⟨q, hq, hqn⟩ := List.mem_map.mp hn
              have hqlvl : q.1 = b := by rw [hprelvl q hq, hb]
              have hqeq : ((b + 0 : Nat), n) = q := by
                obtain ⟨q1, q2⟩ := q
                simp only at hqn hqlvl
                rw [Nat.add_zero, hqlvl, hqn]
              refine List.mem_cons.mpr (Or.inr ?_)
              rw [hdec, hqeq]
              exact List.mem_append.mpr (Or.inl hq)
          · intro hn
            rcases List.mem_cons.mp hn with hn | hn
            · exact List.mem_cons.mpr (Or.inl (congrArg Prod.snd hn))
            · rw [hdec] at hn
              rcases List.mem_append.mp hn with hn | hn
              · refine List.mem_cons.mpr (Or.inr ?_)
                rw [hrun]
                exact List.mem_map.mpr ⟨(b + 0, n), hn, rfl⟩
              · exfalso
                have := hr2lb (b + 0, n) hn
                simp only at this
                omega
        | succ k =>
          rw [hgrp, List.getD_cons_succ, ihchar k n]
          constructor
          · intro hn
            have : (b + 1 + k, n) ∈ p :: rest := hr2sub.mem hn
            rw [show b + (k + 1) = b + 1 + k by omega]
            exact this
          · intro hn
            rw [show b + (k + 1) = b + 1 + k by omega] at hn
            rcases List.mem_cons.mp hn with hn | hn
            · exfalso
              have : p.1 = b + 1 + k := congrArg Prod.fst hn.symm
              omega
            · rw [hdec] at hn
              rcases List.mem_append.mp hn with hn | hn
              · exfalso
                have := hprelvl _ hn
                simp only at this
                omega
              · exact hn

theorem MInv_push {V : Type} {g : Graph V} {memo : List (Name × Nat)}
    (hm : MInv g memo) {name : Name} {l : Nat} {node : Node V}
    (hfresh : memo.lookup name = none)
    (hnode : g.lookup name = some node)
    (hempty : node.requests = [] → l = 0)
    (hne : node.requests ≠ [] →
      (∀ d ∈ node.requests, ∃ ld, memo.lookup d = some ld ∧ ld < l) ∧
      (∃ d ∈ node.requests, ∃ ld, memo.lookup d = some ld ∧ l = ld + 1)) :
    MInv g ((name, l) :: memo) := by
  obtain ⟨hnd, hcoh⟩ := hm
  have hpres : ∀ d ld, memo.lookup d = some ld →
      ((name, l) :: memo).lookup d = some ld := by
    intro d ld hd
    rw [show ((name, l) :: memo).lookup d = memo.lookup d from by
      apply lookup_cons_ne
      intro he
      rw [he, hfresh] at hd
      exact Option.noConfusion hd]
    exact hd
  constructor
  · show (keysOf ((name, l) :: memo)).Nodup
    rw [show keysOf ((name, l) :: memo) = name :: keysOf memo from rfl]
    refine List.nodup_cons.mpr ⟨?_, hnd⟩
    rw [← lookup_none_iff]
    exact hfresh
  · intro n2 l2 hl2
    by_cases hn2 : n2 = name
    · subst hn2
      rw [lookup_cons_self] at hl2
      have hl2e : l = l2 := Option.some_inj.mp hl2
      subst hl2e
      refine ⟨node, hnode, hempty, ?_⟩
      intro hreq
      obtain ⟨h1, h2⟩ := hne hreq
      constructor
      · intro d hd
        obtain ⟨ld, hld, hlt⟩ := h1 d hd
        exact ⟨ld, hpres d ld hld, hlt⟩
      · obtain ⟨d, hd, ld, hld, he⟩ := h2
        exact ⟨d, hd, ld, hpres d ld hld, he⟩
    · rw [lookup_cons_ne _ memo hn2] at hl2
      obtain ⟨node2, hnode2, he2, hr2⟩ := hcoh n2 l2 hl2
      refine ⟨node2, hnode2, he2, ?_⟩
      intro hreq
      obtain ⟨h1, h2⟩ := hr2 hreq
      constructor
      · intro d hd
        obtain ⟨ld, hld, hlt⟩ := h1 d hd
        exact ⟨ld, hpres d ld hld, hlt⟩
      · obtain ⟨d, hd, ld, hld, he⟩ := h2
        exact ⟨d, hd, ld, hpres d ld hld, he⟩

theorem TInv_push {V : Type} {g : Graph V} {st : TState}
    (ht : TInv g st) {name : Name} {l : Nat} {node : Node V}
    (hfresh : st.memo.lookup name = none)
    (hnode : g.lookup name = some node)
    (hempty : node.requests = [] → l = 0)
    (hne : node.requests ≠ [] →
      (∀ d ∈ node.requests, ∃ ld, st.memo.lookup d = some ld ∧ ld < l) ∧
      (∃ d ∈ node.requests, ∃ ld, st.memo.lookup d = some ld ∧ l = ld + 1)) :
    TInv g (tpush st name l) := by
  obtain ⟨hm, hv⟩ := ht
  refine ⟨MInv_push hm hfresh hnode hempty hne, ?_⟩
  show st.vars ++ [(l, name)] =
    (((name, l) :: st.memo).map (fun p => (p.2, p.1))).reverse
  rw [List.map_cons, List.reverse_cons, hv]

theorem deepWalk_ok {V : Type} {g : Graph V} {rk : Name → Nat}
    (hgood : GoodGraph g) (hclosed : Closed g) (hrk : RankFn g rk) :
    ∀ (fuel : Nat) (st : TState) (name : Name),
      TInv g st → name ∈ keysOf g → rk name < fuel →
      ∃ l st', deepWalk g fuel st name = some (l, st') ∧ TInv g st' ∧
        MExtends st.memo st'.memo ∧ st'.memo.lookup name = some l ∧
        (∀ k, (st'.memo.lookup k).isSome →
          (st.memo.lookup k).isSome ∨ rk k ≤ rk name) := by
  intro fuel
  induction fuel with
  | zero =>
    intro st name _ _ hr
    exact absurd hr (Nat.not_lt_zero _)
  | succ fuel ih =>
    intro st name hinv hmem hr
    cases hhit : st.memo.lookup name with
    | some l =>
      refine ⟨l, st, ?_, hinv, fun k v hv => hv, hhit, fun k hk => Or.inl hk⟩
      unfold deepWalk
      rw [hhit]
    | none =>
      have hns : (g.lookup name).isSome := (lookup_isSome_iff_mem_keys g name).mpr hmem
      cases hnode : g.lookup name with
      | none => rw [hnode] at hns; exact Bool.noConfusion hns
      | some node =>
        have hdepsk : ∀ d ∈ node.requests, d ∈ keysOf g := by
          intro d hd
          exact (lookup_isSome_iff_mem_keys g d).mp
            (hclosed (name, node) (lookup_mem hnode) d hd)
        have hdepsr : ∀ d ∈ node.requests, rk d < rk name :=
          fun d hd => hrk (name, node) (lookup_mem hnode) d hd
        have hwalk : ∀ (ds : List Name) (st0 : TState), TInv g st0 →
            (∀ d ∈ ds, d ∈ keysOf g ∧ rk d < fuel ∧ rk d < rk name) →
            ds ≠ [] →
            ∃ mx st', walkMaxWith (fun st1 c => deepWalk g fuel st1 c) st0 ds =
                some (mx, st') ∧
              TInv g st' ∧ MExtends st0.memo st'.memo ∧
              (∀ d ∈ ds, ∃ ld, st'.memo.lookup d = some ld ∧ ld ≤ mx) ∧
              (∃ d ∈ ds, st'.memo.lookup d = some mx) ∧
              (∀ k, (st'.memo.lookup k).isSome →
                (st0.memo.lookup k).isSome ∨ rk k < rk name) := by
          intro ds
          induction ds with
          | nil =>
            intro st0 _ _ hne
            exact absurd rfl hne
          | cons d ds2 ihds =>
            intro st0 hinv0 hall _
            obtain ⟨hdk, hdf, hdr⟩ := hall d (by simp)
            obtain ⟨l1, st1, hw1, hinv1, hext1, hl1, hnew1⟩ :=
              ih st0 d hinv0 hdk hdf
            cases ds2 with
            | nil =>
              refine ⟨l1, st1, ?_, hinv1, hext1, ?_, ⟨d, by simp, hl1⟩, ?_⟩
              · show deepWalk g fuel st0 d = some (l1, st1)
                exact hw1
              · intro d2 hd2
                rw [List.mem_singleton.mp hd2]
                exact ⟨l1, hl1, Nat.le_refl l1⟩
              · intro k hk
                rcases hnew1 k hk with hk | hk
                · exact Or.inl hk
                · exact Or.inr (Nat.lt_of_le_of_lt hk hdr)
            | cons d2 ds3 =>
              obtain ⟨mx2, st2, hw2, hinv2, hext2, hmem2, hatt2, hnew2⟩ :=
                ihds st1 hinv1
                  (fun x hx => hall x (List.mem_cons_of_mem _ hx))
                  (by simp)
              refine ⟨Nat.max l1 mx2, st2, ?_, hinv2,
                fun k v hv => hext2 k v (hext1 k v hv), ?_, ?_, ?_⟩
              · show walkMaxWith (fun st1 c => deepWalk g fuel st1 c) st0
                    (d :: d2 :: ds3) = some (Nat.max l1 mx2, st2)
                simp only [walkMaxWith, hw1, hw2]
              · intro x hx
                rcases List.mem_cons.mp hx with hx | hx
                · subst hx
                  exact ⟨l1, hext2 x l1 hl1, Nat.le_max_left l1 mx2⟩
                · obtain ⟨ld, hld, hle⟩ := hmem2 x hx
                  exact ⟨ld, hld, Nat.le_trans hle (Nat.le_max_right l1 mx2)⟩
              · rcases Nat.le_total l1 mx2 with hle | hle
                · obtain ⟨x, hx, hlx⟩ := hatt2
                  refine ⟨x, List.mem_cons_of_mem _ hx, ?_⟩
                  rw [show Nat.max l1 mx2 = mx2 from Nat.max_eq_right hle]
                  exact hlx
                · refine ⟨d, by simp, ?_⟩
                  rw [show Nat.max l1 mx2 = l1 from Nat.max_eq_left hle]
                  exact hext2 d l1 hl1
              · intro k hk
                rcases hnew2 k hk with hk | hk
                · rcases hnew1 k hk with hk2 | hk2
                  · exact Or.inl hk2
                  · exact Or.inr (Nat.lt_of_le_of_lt hk2 hdr)
                · exact Or.inr hk
        cases hreq : node.requests with
        | nil =>
          refine ⟨0, tpush st name 0, ?_, ?_, ?_, ?_, ?_⟩
          · show deepWalk g (fuel + 1) st name = some (0, tpush st name 0)
            simp only [deepWalk, hhit, hnode, hreq]
          · exact TInv_push hinv hhit hnode (fun _ => rfl)
              (fun hne => absurd hreq hne)
          · intro k v hv
            show ((name, 0) :: st.memo).lookup k = some v
            rw [lookup_cons_ne _ st.memo (by
              intro he
              rw [he, hhit] at hv
              exact Option.noConfusion hv)]
            exact hv
          · exact lookup_cons_self name 0 st.memo
          · intro k hk
            by_cases hkn : k = name
            · exact Or.inr (hkn ▸ Nat.le_refl (rk name))
            · left
              rw [show (tpush st name 0).memo.lookup k = st.memo.lookup k from
                lookup_cons_ne _ st.memo hkn] at hk
              exact hk
        | cons d ds =>
          obtain ⟨mx, st1, hw, hinv1, hext1, hmem1, hatt1, hnew1⟩ :=
            hwalk (d :: ds) st hinv
              (by
                intro x hx
                rw [← hreq] at hx
                refine ⟨hdepsk x hx, ?_, hdepsr x hx⟩
                have := hdepsr x hx
                omega)
              (by simp)
          have hfresh1 : st1.memo.lookup name = none := by
            cases hl : st1.memo.lookup name with
            | none => rfl
            | some l2 =>
              exfalso
              rcases hnew1 name (by simp [hl]) with hk | hk
              · rw [hhit] at hk
                exact Bool.noConfusion hk
              · omega
          refine ⟨mx + 1, tpush st1 name (mx + 1), ?_, ?_, ?_, ?_, ?_⟩
          · show deepWalk g (fuel + 1) st name = some (mx + 1, tpush st1 name (mx + 1))
            simp only [deepWalk, hhit, hnode, hreq, hw]
          · refine TInv_push hinv1 hfresh1 hnode
              (fun he => absurd hreq (he ▸ (by simp))) ?_
            intro _
            rw [hreq]
            constructor
            · intro x hx
              obtain ⟨ld, hld, hle⟩ := hmem1 x hx
              exact ⟨ld, hld, by omega⟩
            · obtain ⟨x, hx, hlx⟩ := hatt1
              exact ⟨x, hx, mx, hlx, rfl⟩
          · intro k v hv
            show ((name, mx + 1) :: st1.memo).lookup k = some v
            rw [lookup_cons_ne _ st1.memo (by
              intro he
              rw [he, hhit] at hv
              exact Option.noConfusion hv)]
            exact hext1 k v hv
          · exact lookup_cons_self name (mx + 1) st1.memo
          · intro k hk
            by_cases hkn : k = name
            · exact Or.inr (hkn ▸ Nat.le_refl (rk name))
            · rw [show (tpush st1 name (mx + 1)).memo.lookup k =
                st1.memo.lookup k from lookup_cons_ne _ st1.memo hkn] at hk
              rcases hnew1 k hk with hk2 | hk2
              · exact Or.inl hk2
              · exact Or.inr (Nat.le_of_lt hk2)

theorem topsortFold_ok {V : Type} {g : Graph V} {rk : Name → Nat}
    (hgood : GoodGraph g) (hclosed : Closed g) (hrk : RankFn g rk)
    {N : Nat} (hN : ∀ p ∈ g, rk p.1 < N) :
    ∃ stF, topsortFold g N = some stF ∧ TInv g stF ∧
      (∀ n ∈ keysOf g, (stF.memo.lookup n).isSome) := by
  have main : ∀ (ps : List (Name × Node V)) (st0 : TState), TInv g st0 →
      (∀ p ∈ ps, p.1 ∈ keysOf g ∧ rk p.1 < N) →
      ∃ st', List.foldlM (fun st p => (deepWalk g N st p.1).map Prod.snd) st0 ps =
          some st' ∧
        TInv g st' ∧ MExtends st0.memo st'.memo ∧
        (∀ p ∈ ps, (st'.memo.lookup p.1).isSome) := by
    intro ps
    induction ps with
    | nil =>
      intro st0 h0 _
      exact ⟨st0, rfl, h0, fun k v hv => hv, by simp⟩
    | cons p ps ih =>
      intro st0 h0 hall
      obtain ⟨hpk, hpr⟩ := hall p (by simp)
      obtain ⟨l, st1, hw, hinv1, hext1, hl1, _⟩ :=
        deepWalk_ok hgood hclosed hrk N st0 p.1 h0 hpk hpr
      obtain ⟨st', hfold, hinv2, hext2, hmem2⟩ :=
        ih st1 hinv1 (fun q hq => hall q (List.mem_cons_of_mem _ hq))
      refine ⟨st', ?_, hinv2, fun k v hv => hext2 k v (hext1 k v hv), ?_⟩
      · rw [List.foldlM_cons, hw]
        simpa using hfold
      · intro q hq
        rcases List.mem_cons.mp hq with hq | hq
        · rw [hq]
          simp [hext2 p.1 l hl1]
        · exact hmem2 q hq
  obtain ⟨st', hfold, hinv, _, hmem⟩ := main g ⟨[], []⟩
    ⟨⟨List.nodup_nil, by intro n l hl; simp at hl⟩, rfl⟩
    (fun p hp => ⟨List.mem_map.mpr ⟨p, hp, rfl⟩, hN p hp⟩)
  refine ⟨st', hfold, hinv, ?_⟩
  intro n hn
  obtain ⟨p, hp, hpk⟩ := List.mem_map.mp hn
  rw [← hpk]
  exact hmem p hp

/-- Claim C1: for every well formed closed acyclic graph (acyclicity
witnessed by a rank function bounded by N), the topological layering
terminates and returns an ordered sequence of layers such that layer 0
holds exactly the nodes with empty requests, every node of a later
layer k has all dependencies in strictly earlier layers and some
dependency in layer k - 1 (its maximum dependency layer is k - 1),
every graph name appears in exactly one layer, and every dependency
edge goes from a strictly earlier layer to a later one. -/
theorem topsort_layers_correct {V : Type} (g : Graph V) (rk : Name → Nat)
    (N : Nat) (hgood : GoodGraph g) (hclosed : Closed g) (hrk : RankFn g rk)
    (hN : ∀ p ∈ g, rk p.1 < N) :
    ∃ layers, topsortFuel g N = some layers ∧
      (∀ n node, g.lookup n = some node →
        (n ∈ layers.getD 0 [] ↔ node.requests = [])) ∧
      (∀ k, 0 < k → ∀ n ∈ layers.getD k [], ∃ node, g.lookup n = some node ∧
        node.requests ≠ [] ∧
        (∀ d ∈ node.requests, ∃ j, j < k ∧ d ∈ layers.getD j []) ∧
        (∃ d ∈ node.requests, d ∈ layers.getD (k - 1) [])) ∧
      (∀ n, layers.flatten.count n = if n ∈ keysOf g then 1 else 0) ∧
      (∀ n node d, g.lookup n = some node → d ∈ node.requests →
        ∃ j k2, d ∈ layers.getD j [] ∧ n ∈ layers.getD k2 [] ∧ j < k2) := by
  obtain ⟨stF, hfold, ⟨hminv, hvars⟩, hcompl⟩ := topsortFold_ok hgood hclosed hrk hN
  obtain ⟨hmnd, hcoh⟩ := hminv
  have hsub : ∀ n l, stF.memo.lookup n = some l → n ∈ keysOf g := by
    intro n l hl
    obtain ⟨node, hnode, _, _⟩ := hcoh n l hl
    exact (lookup_isSome_iff_mem_keys g n).mp (by simp [hnode])
  set ps := sortPairs stF.vars with hps
  have hperm : ps.Perm stF.vars := sortPairs_perm stF.vars
  have hmemiff : ∀ l n, (l, n) ∈ ps ↔ stF.memo.lookup n = some l := by
    intro l n
    rw [hperm.mem_iff]
    rw [hvars]
    rw [List.mem_reverse]
    constructor
    · intro hm
      obtain ⟨q, hq, hqe⟩ := List.mem_map.mp hm
      have h1 : q.2 = l := congrArg Prod.fst hqe
      have h2 : q.1 = n := congrArg Prod.snd hqe
      rw [← h1, ← h2]
      exact lookup_of_mem_nodup hmnd (show (q.1, q.2) ∈ stF.memo by simpa using hq)
    · intro hm
      exact List.mem_map.mpr ⟨(n, l), lookup_mem hm, rfl⟩
  have hocc : ∀ l, (∃ n, stF.memo.lookup n = some l) →
      ∀ j, j ≤ l → ∃ n2, stF.memo.lookup n2 = some j := by
    intro l
    induction l with
    | zero =>
      rintro ⟨n, hn⟩ j hj
      rw [Nat.le_zero.mp hj]
      exact ⟨n, hn⟩
    | succ l ihl =>
      rintro ⟨n, hn⟩ j hj
      rcases Nat.lt_or_ge j (l + 1) with hlt | hge
      · obtain ⟨node, hnode, hemp, hne⟩ := hcoh n (l + 1) hn
        have hreqne : node.requests ≠ [] := by
          intro he
          exact Nat.succ_ne_zero l (hemp he)
        obtain ⟨_, d, hd, ld, hld, hle⟩ := hne hreqne
        have hldl : ld = l := by omega
        exact ihl ⟨d, hldl ▸ hld⟩ j (by omega)
      · rw [show j = l + 1 by omega]
        exact ⟨n, hn⟩
  have hdc : ∀ p ∈ ps, ∀ j, 0 ≤ j → j < p.1 → ∃ q ∈ ps, q.1 = j := by
    intro p hp j _ hj
    have hpl : stF.memo.lookup p.2 = some p.1 := by
      rw [← hmemiff]
      simpa using hp
    obtain ⟨n2, hn2⟩ := hocc p.1 ⟨p.2, hpl⟩ j (Nat.le_of_lt hj)
    exact ⟨(j, n2), (hmemiff j n2).mpr hn2, rfl⟩
  obtain ⟨hjoin, hchar0⟩ := groupByLevelAux_char ps.length ps 0
    (Nat.le_refl _) (sortPairs_sorted stF.vars) (fun p _ => Nat.zero_le p.1) hdc
  have hchar : ∀ k n, n ∈ (groupByLevel ps).getD k [] ↔
      stF.memo.lookup n = some k := by
    intro k n
    rw [show groupByLevel ps = groupByLevelAux ps.length ps from rfl]
    rw [hchar0 k n]
    rw [show (0 + k : Nat) = k from Nat.zero_add k]
    exact hmemiff k n
  refine ⟨groupByLevel ps, ?_, ?_, ?_, ?_, ?_⟩
  · rw [show topsortFuel g N = (topsortFold g N).map
      (fun st => groupByLevel (sortPairs st.vars)) from rfl]
    rw [hfold]
    rfl
  · intro n node hnode
    rw [hchar 0 n]
    constructor
    · intro h0
      obtain ⟨node2, hnode2, _, hne⟩ := hcoh n 0 h0
      rw [hnode] at hnode2
      rw [Option.some_inj.mp hnode2]
      by_contra hreq
      obtain ⟨_, d, hd, ld, _, hle⟩ := hne hreq
      exact Nat.succ_ne_zero ld hle.symm
    · intro hreq
      have hn := hcompl n ((lookup_isSome_iff_mem_keys g n).mp (by simp [hnode]))
      cases hl : stF.memo.lookup n with
      | none => rw [hl] at hn; exact Bool.noConfusion hn
      | some l =>
        obtain ⟨node2, hnode2, hemp, _⟩ := hcoh n l hl
        rw [hnode] at hnode2
        rw [← Option.some_inj.mp hnode2] at hemp
        rw [← hemp hreq]
  · intro k hk n hn
    have hl := (hchar k n).mp hn
    obtain ⟨node, hnode, hemp, hne⟩ := hcoh n k hl
    have hreqne : node.requests ≠ [] := by
      intro he
      rw [hemp he] at hk
      exact Nat.lt_irrefl 0 hk
    obtain ⟨hall, d, hd, ld, hld, hle⟩ := hne hreqne
    refine ⟨node, hnode, hreqne, ?_, ?_⟩
    · intro d2 hd2
      obtain ⟨ld2, hld2, hlt2⟩ := hall d2 hd2
      exact ⟨ld2, hlt2, (hchar ld2 d2).mpr hld2⟩
    · refine ⟨d, hd, ?_⟩
      rw [show k - 1 = ld by omega]
      exact (hchar ld d).mpr hld
  · intro n
    rw [show groupByLevel ps = groupByLevelAux ps.length ps from rfl]
    rw [hjoin]
    have hc1 : (ps.map Prod.snd).count n = (stF.vars.map Prod.snd).count n :=
      (hperm.map Prod.snd).count_eq n
    rw [hc1, hvars]
    rw [show ((stF.memo.map (fun p => (p.2, p.1))).reverse).map Prod.snd =
      ((stF.memo.map (fun p => (p.2, p.1))).map Prod.snd).reverse from
        (List.map_reverse _ _)]
    rw [List.count_reverse]
    rw [List.map_map]
    rw [show (Prod.snd ∘ fun p : Name × Nat => (p.2, p.1)) = Prod.fst from
      funext (fun p => rfl)]
    by_cases hm : n ∈ keysOf g
    · rw [if_pos hm]
      have hn := hcompl n hm
      have : n ∈ stF.memo.map Prod.fst :=
        (lookup_isSome_iff_mem_keys stF.memo n).mp hn
      exact List.count_eq_one_of_mem hmnd this
    · rw [if_neg hm]
      refine List.count_eq_zero_of_not_mem ?_
      intro hmm
      apply hm
      have : (stF.memo.lookup n).isSome :=
        (lookup_isSome_iff_mem_keys stF.memo n).mpr hmm
      cases hl : stF.memo.lookup n with
      | none => rw [hl] at this; exact Bool.noConfusion this
      | some l => exact hsub n l hl
  · intro n node d hnode hd
    have hn := hcompl n ((lookup_isSome_iff_mem_keys g n).mp (by simp [hnode]))
    cases hl : stF.memo.lookup n with
    | none => rw [hl] at hn; exact Bool.noConfusion hn
    | some l =>
      obtain ⟨node2, hnode2, _, hne⟩ := hcoh n l hl
      rw [hnode] at hnode2
      have hnn : node = node2 := Option.some_inj.mp hnode2
      subst hnn
      have hreqne : node.requests ≠ [] := by
        intro he
        rw [he] at hd
        exact List.not_mem_nil d hd
      obtain ⟨hall, _⟩ := hne hreqne
      obtain ⟨ld, hld, hlt⟩ := hall d hd
      exact ⟨ld, l, (hchar ld d).mpr hld, (hchar l n).mpr hl, hlt⟩

theorem topsort_layers_correct_witness :
    ∃ layers, topsortFuel demoGraph 4 = some layers ∧
      (∀ n node, demoGraph.lookup n = some node →
        (n ∈ layers.getD 0 [] ↔ node.requests = [])) ∧
      (∀ k, 0 < k → ∀ n ∈ layers.getD k [], ∃ node,
        demoGraph.lookup n = some node ∧
        node.requests ≠ [] ∧
        (∀ d ∈ node.requests, ∃ j, j < k ∧ d ∈ layers.getD j []) ∧
        (∃ d ∈ node.requests, d ∈ layers.getD (k - 1) [])) ∧
      (∀ n, layers.flatten.count n = if n ∈ keysOf demoGraph then 1 else 0) ∧
      (∀ n node d, demoGraph.lookup n = some node → d ∈ node.requests →
        ∃ j k2, d ∈ layers.getD j [] ∧ n ∈ layers.getD k2 [] ∧ j < k2) :=
  topsort_layers_correct demoGraph demoRank 4
    (by unfold GoodGraph; decide)
    (by unfold Closed; decide)
    (by unfold RankFn; decide)
    (by decide)

end GraphEval

